import Mathlib

/-!
Verification of the process-supervisor core of the CalDAV server
(`calendarserver/tap/caldav.py`): the delayed-startup process monitor
(`DelayedStartupProcessMonitor`), the long-line safe log relay
(`DelayedStartupLineLogger` / `DelayedStartupLoggingProtocol`) and the
child-environment whitelist (`_computeEnvVars`).

The Python code is shallowly embedded: byte strings become `List Char`,
dictionaries become association lists (insertion-ordered, like the
`OrderedDict` used by the source), the twisted reactor becomes an explicit
list of pending one-shot timers plus a rational-valued clock, and the
nondeterministic environment (child exits, timer firings) becomes an
inductive step relation.
-/

set_option maxRecDepth 100000
set_option maxHeartbeats 3000000

namespace CalDAV

/-! ## Association lists (Python `dict` / `OrderedDict`)

`setA` mirrors `d[k] = v`: an existing key keeps its position (as in
`OrderedDict`), a new key is appended.  `lookupA` mirrors `d.get(k)` and
`eraseA` mirrors `del d[k]`. -/

def lookupA {β : Type} : List (String × β) → String → Option β
  | [], _ => none
  | (k, v) :: rest, key => if k = key then some v else lookupA rest key

def setA {β : Type} : List (String × β) → String → β → List (String × β)
  | [], key, val => [(key, val)]
  | (k, v) :: rest, key, val =>
      if k = key then (k, val) :: rest else (k, v) :: setA rest key val

def eraseA {β : Type} : List (String × β) → String → List (String × β)
  | [], _ => []
  | (k, v) :: rest, key => if k = key then rest else (k, v) :: eraseA rest key

theorem lookupA_setA {β : Type} (l : List (String × β)) (k k' : String) (v : β) :
    lookupA (setA l k v) k' = if k = k' then some v else lookupA l k' := by
  induction l with
  | nil => by_cases h : k = k' <;> simp [setA, lookupA, h]
  | cons p rest ih =>
      obtain ⟨a, b⟩ := p
      by_cases hak : a = k
      · subst hak
        by_cases h : a = k' <;> simp [setA, lookupA, h]
      · by_cases h : a = k'
        · subst h
          have hk : ¬ k = a := fun hh => hak hh.symm
          simp [setA, lookupA, hak, hk]
        · simp [setA, lookupA, hak, h, ih]

theorem lookupA_eraseA {β : Type} (l : List (String × β)) (k k' : String)
    (h : k ≠ k') : lookupA (eraseA l k) k' = lookupA l k' := by
  induction l with
  | nil => simp [eraseA]
  | cons p rest ih =>
      obtain ⟨a, b⟩ := p
      by_cases hak : a = k
      · subst hak
        have : ¬ a = k' := fun hh => h hh
        simp [eraseA, lookupA, this]
      · have hk : ¬ k' = k := fun hh => h hh.symm
        by_cases h' : a = k' <;> simp [eraseA, lookupA, hak, h', hk, ih]

/-! ## The long-line safe log relay (`DelayedStartupLineLogger`)

Child output is a byte string, embedded as `List Char`.  `pySplit` is
Python's `str.split("\x27\n\x27")`: it never returns an empty list, and the
final element is the (possibly empty) text after the last newline. -/

def MAX_LENGTH : Nat := 1024

def CONTINUED_TEXT : List Char := " (truncated, continued)".toList

def pySplit : List Char → List (List Char)
  | [] => [[]]
  | c :: rest =>
    let r := pySplit rest
    if c = '\n' then [] :: r else (c :: r.headI) :: r.tail

/-- State of a `DelayedStartupLineLogger`: the `exceeded` flag ("am I in the
middle of parsing a long line?") and the `_buffer` of the pending partial
line. -/
structure LineLogger where
  exceeded : Bool := false
  buffer : List Char := []
deriving DecidableEq

/-- What the logger hands to the logging system: `record s b` is one emitted
log record with text `s`; the flag `b` tells whether `s` was produced as a
non-final segment of `_breakLineIntoSegments` (and therefore carries the
`CONTINUED_TEXT` suffix).  `newline` is a bookkeeping marker recording that
one `"\x5cn"` of the child's output was consumed (the source emits records
only; the marker lets the round-trip theorem reassemble lines). -/
inductive LogTok
  | record (s : List Char) (suffixed : Bool)
  | newline
deriving DecidableEq

/-- One segment record: the segment text gets `CONTINUED_TEXT` appended
exactly when it is not the final segment (`b = true`). -/
def segTok (seg : List Char) (b : Bool) : LogTok :=
  .record (seg ++ (if b then CONTINUED_TEXT else [])) b

/-- `DelayedStartupLineLogger._breakLineIntoSegments`.  The source is
Python 2, so `length / self.MAX_LENGTH` is floor division; every segment
except the final one gets `CONTINUED_TEXT` appended. -/
def breakLineIntoSegments (line : List Char) : List LogTok :=
  let length := line.length
  let numSegments := length / MAX_LENGTH + (if length % MAX_LENGTH ≠ 0 then 1 else 0)
  (List.range numSegments).map fun i =>
    segTok ((line.drop (i * MAX_LENGTH)).take MAX_LENGTH) (decide (i < numSegments - 1))

/-- The loop body of `DelayedStartupLineLogger.dataReceived` after the
split: the `while len(lines) > 1` loop over the completed lines followed by
the handling of the final (partial) element. -/
def processLines (st : LineLogger) : List (List Char) → LineLogger × List LogTok
  | [] => (st, [])
  | [lastLine] =>
      if MAX_LENGTH < lastLine.length then
        ({ exceeded := true, buffer := [] }, breakLineIntoSegments lastLine)
      else
        ({ st with buffer := lastLine }, [])
  | line :: next :: rest =>
      if MAX_LENGTH < line.length then
        let (st', more) := processLines st (next :: rest)
        (st', breakLineIntoSegments line ++ LogTok.newline :: more)
      else if st.exceeded then
        let (st', more) := processLines { st with exceeded := false } (next :: rest)
        (st', breakLineIntoSegments line ++ LogTok.newline :: more)
      else
        let (st', more) := processLines st (next :: rest)
        (st', LogTok.record line false :: LogTok.newline :: more)

/-- `DelayedStartupLineLogger.dataReceived`. -/
def dataReceived (st : LineLogger) (data : List Char) : LineLogger × List LogTok :=
  processLines st (pySplit (st.buffer ++ data))

/-- Feed a sequence of chunks (successive `dataReceived` calls), collecting
all emitted tokens. -/
def runLogger (st : LineLogger) : List (List Char) → LineLogger × List LogTok
  | [] => (st, [])
  | d :: ds =>
      let (st1, t1) := dataReceived st d
      let (st2, t2) := runLogger st1 ds
      (st2, t1 ++ t2)

/-- The text of the delivered records, in order (what actually reaches the
log). -/
def emittedRecords (ts : List LogTok) : List (List Char) :=
  ts.filterMap fun t =>
    match t with
    | .record s _ => some s
    | .newline => none

/-- Strip the trailing `CONTINUED_TEXT` suffix from a record. -/
def stripContinued (s : List Char) : List Char :=
  s.take (s.length - CONTINUED_TEXT.length)

/-- A record's text with the truncation suffix stripped when the record is a
non-final segment of a long line. -/
def strippedText : LogTok → List Char
  | .record s true => stripContinued s
  | .record s false => s
  | .newline => []

/-- Reassemble the child's output from the token stream: records contribute
their suffix-stripped text, each newline marker contributes one newline. -/
def recon : List LogTok → List Char
  | [] => []
  | .record s b :: ts => strippedText (.record s b) ++ recon ts
  | .newline :: ts => '\n' :: recon ts

/-- Group the suffix-stripped record texts into the completed lines
(`newline` markers end a line) plus the trailing partial line. -/
def collectLinesAux : List LogTok → List (List Char) → List Char →
    List (List Char) × List Char
  | [], done, cur => (done, cur)
  | .record s b :: ts, done, cur =>
      collectLinesAux ts done (cur ++ strippedText (.record s b))
  | .newline :: ts, done, cur => collectLinesAux ts (done ++ [cur]) []

def collectLines (ts : List LogTok) : List (List Char) × List Char :=
  collectLinesAux ts [] []

/-- `"\x5cn".join(lines)`: the inverse of `pySplit`. -/
def joinLines : List (List Char) → List Char
  | [] => []
  | [l] => l
  | l :: next :: rest => l ++ '\n' :: joinLines (next :: rest)

/-! ### Basic facts about `pySplit` and `joinLines` -/

theorem pySplit_ne_nil (s : List Char) : pySplit s ≠ [] := by
  cases s with
  | nil => simp [pySplit]
  | cons c rest => simp only [pySplit]; split <;> simp

theorem pySplit_cons_newline (rest : List Char) :
    pySplit ('\n' :: rest) = [] :: pySplit rest := by
  simp [pySplit]

theorem pySplit_cons_ne (c : Char) (rest : List Char) (h : c ≠ '\n') :
    pySplit (c :: rest) = (c :: (pySplit rest).headI) :: (pySplit rest).tail := by
  simp [pySplit, h]

theorem headI_cons_tail {α : Type} [Inhabited α] (l : List α) (h : l ≠ []) :
    l.headI :: l.tail = l := by
  cases l with
  | nil => contradiction
  | cons a t => rfl

theorem pySplit_append_noNl (x s : List Char) (hx : '\n' ∉ x) :
    pySplit (x ++ s) = (x ++ (pySplit s).headI) :: (pySplit s).tail := by
  induction x with
  | nil => simpa using (headI_cons_tail _ (pySplit_ne_nil s)).symm
  | cons c x ih =>
      have hc : c ≠ '\n' := fun h => hx (by simp [h])
      have hx' : '\n' ∉ x := fun h => hx (List.mem_cons_of_mem _ h)
      rw [List.cons_append, pySplit_cons_ne _ _ hc, ih hx']
      simp

theorem pySplit_noNl (x : List Char) (hx : '\n' ∉ x) : pySplit x = [x] := by
  have := pySplit_append_noNl x [] hx
  simpa [pySplit] using this

theorem joinLines_cons_ne (l : List Char) (ls : List (List Char)) (h : ls ≠ []) :
    joinLines (l :: ls) = l ++ '\n' :: joinLines ls := by
  cases ls with
  | nil => contradiction
  | cons l2 ls2 => rfl

theorem joinLines_cons_headI (c : Char) (r : List (List Char)) (h : r ≠ []) :
    joinLines ((c :: r.headI) :: r.tail) = c :: joinLines r := by
  cases r with
  | nil => contradiction
  | cons l ls =>
      cases ls with
      | nil => rfl
      | cons l2 ls2 => simp [joinLines]

theorem joinLines_pySplit (s : List Char) : joinLines (pySplit s) = s := by
  induction s with
  | nil => rfl
  | cons c rest ih =>
      by_cases hc : c = '\n'
      · subst hc
        rw [pySplit_cons_newline,
            joinLines_cons_ne _ _ (pySplit_ne_nil rest)]
        simp [ih]
      · rw [pySplit_cons_ne _ _ hc,
            joinLines_cons_headI _ _ (pySplit_ne_nil rest), ih]

theorem pySplit_joinLines (xs : List (List Char)) (hne : xs ≠ [])
    (h : ∀ l ∈ xs, '\n' ∉ l) : pySplit (joinLines xs) = xs := by
  induction xs with
  | nil => contradiction
  | cons l ls ih =>
      cases ls with
      | nil => simpa [joinLines] using pySplit_noNl l (h l (by simp))
      | cons l2 ls2 =>
          have hrec : pySplit (joinLines (l2 :: ls2)) = l2 :: ls2 :=
            ih (by simp) (fun a ha => h a (List.mem_cons_of_mem _ ha))
          rw [joinLines_cons_ne _ _ (by simp),
              pySplit_append_noNl _ _ (h l (by simp)),
              pySplit_cons_newline, hrec]
          simp

theorem joinLines_append_last (xs : List (List Char)) (a b : List Char) :
    joinLines (xs ++ [a]) ++ b = joinLines (xs ++ [a ++ b]) := by
  induction xs with
  | nil => simp [joinLines]
  | cons x xs ih =>
      rw [List.cons_append, List.cons_append,
          joinLines_cons_ne _ _ (by simp), joinLines_cons_ne _ _ (by simp)]
      simp [ih]

theorem joinLines_append_two (xs : List (List Char)) (a b : List Char) :
    joinLines (xs ++ [a, b]) = joinLines (xs ++ [a ++ '\n' :: b]) := by
  induction xs with
  | nil => simp [joinLines]
  | cons x xs ih =>
      rw [List.cons_append, List.cons_append,
          joinLines_cons_ne _ _ (by simp), joinLines_cons_ne _ _ (by simp)]
      simp [ih]

/-! ### Segments reassemble into the original line -/

theorem stripContinued_append (c : List Char) :
    stripContinued (c ++ CONTINUED_TEXT) = c := by
  unfold stripContinued
  rw [List.length_append, Nat.add_sub_cancel, List.take_left]

theorem strippedText_segTok (seg : List Char) (b : Bool) :
    strippedText (segTok seg b) = seg := by
  cases b <;> simp [segTok, strippedText, stripContinued_append]

theorem recon_append (ts us : List LogTok) :
    recon (ts ++ us) = recon ts ++ recon us := by
  induction ts with
  | nil => rfl
  | cons t ts ih => cases t <;> simp [recon, ih]

theorem recon_map_segTok (g : Nat → List Char) (fl : Nat → Bool) (is : List Nat) :
    recon (is.map fun i => segTok (g i) (fl i)) = (is.map g).flatten := by
  induction is with
  | nil => rfl
  | cons i is ih =>
      have : segTok (g i) (fl i) =
          LogTok.record ((g i) ++ (if fl i then CONTINUED_TEXT else [])) (fl i) := rfl
      rw [List.map_cons, this, recon]
      rw [← this, List.map_cons, List.flatten_cons, ← ih]
      congr 1
      exact strippedText_segTok _ _

theorem flatten_dropTake (l : List Char) (M : Nat) (n : Nat) :
    ((List.range n).map fun i => (l.drop (i * M)).take M).flatten
      = l.take (n * M) := by
  induction n with
  | zero => simp
  | succ n ih =>
      rw [List.range_succ, List.map_append, List.flatten_append, ih]
      simp only [List.map_cons, List.map_nil, List.flatten_cons,
        List.flatten_nil, List.append_nil]
      rw [← List.take_add, Nat.succ_mul]

theorem recon_breakLineIntoSegments (l : List Char) :
    recon (breakLineIntoSegments l) = l := by
  unfold breakLineIntoSegments
  rw [recon_map_segTok, flatten_dropTake]
  apply List.take_of_length_le
  have hdm := Nat.div_add_mod l.length MAX_LENGTH
  have hlt : l.length % MAX_LENGTH < MAX_LENGTH :=
    Nat.mod_lt _ (by norm_num [MAX_LENGTH])
  simp only [MAX_LENGTH] at *
  split <;> omega

/-! ### The `dataReceived` loop preserves the child's output -/

theorem processLines_recon (ls : List (List Char)) : ∀ st : LineLogger, ls ≠ [] →
    recon (processLines st ls).2 ++ (processLines st ls).1.buffer = joinLines ls := by
  induction ls with
  | nil => intro st h; contradiction
  | cons l ls ih =>
      intro st _
      cases ls with
      | nil =>
          by_cases h : MAX_LENGTH < l.length
          · simp [processLines, h, joinLines, recon_breakLineIntoSegments]
          · simp [processLines, h, joinLines, recon]
      | cons l2 ls2 =>
          have hne2 : (l2 :: ls2 : List (List Char)) ≠ [] := by simp
          rw [joinLines_cons_ne _ _ hne2]
          by_cases h1 : MAX_LENGTH < l.length
          · have hrec := ih st hne2
            rcases hp : processLines st (l2 :: ls2) with ⟨st', more⟩
            rw [hp] at hrec
            simp only [processLines, if_pos h1, hp]
            rw [recon_append]
            simp [recon, recon_breakLineIntoSegments, hrec]
          · by_cases h2 : st.exceeded
            · have hrec := ih { st with exceeded := false } hne2
              rcases hp : processLines { st with exceeded := false } (l2 :: ls2)
                with ⟨st', more⟩
              rw [hp] at hrec
              simp only [processLines, if_neg h1, if_pos h2, hp]
              rw [recon_append]
              simp [recon, recon_breakLineIntoSegments, hrec]
            · have hrec := ih st hne2
              rcases hp : processLines st (l2 :: ls2) with ⟨st', more⟩
              rw [hp] at hrec
              simp only [processLines, if_neg h1, if_neg h2, hp]
              simp [recon, strippedText, hrec]

theorem dataReceived_recon (st : LineLogger) (data : List Char) :
    recon (dataReceived st data).2 ++ (dataReceived st data).1.buffer
      = st.buffer ++ data := by
  unfold dataReceived
  rw [processLines_recon _ _ (pySplit_ne_nil _), joinLines_pySplit]

theorem runLogger_recon (chunks : List (List Char)) : ∀ st : LineLogger,
    recon (runLogger st chunks).2 ++ (runLogger st chunks).1.buffer
      = st.buffer ++ chunks.flatten := by
  induction chunks with
  | nil => intro st; simp [runLogger, recon]
  | cons d ds ih =>
      intro st
      rcases h1 : dataReceived st d with ⟨st1, t1⟩
      rcases h2 : runLogger st1 ds with ⟨st2, t2⟩
      have e1 := dataReceived_recon st d; rw [h1] at e1
      have e2 := ih st1; rw [h2] at e2
      simp only [runLogger, h1, h2]
      rw [recon_append, List.append_assoc, e2, ← List.append_assoc, e1]
      simp

/-! ### No emitted fragment contains a newline -/

theorem headI_mem {α : Type} [Inhabited α] (l : List α) (h : l ≠ []) :
    l.headI ∈ l := by
  cases l with
  | nil => contradiction
  | cons a t => simp

theorem mem_pySplit_noNl (s : List Char) : ∀ l ∈ pySplit s, '\n' ∉ l := by
  induction s with
  | nil => intro l hl; simp [pySplit] at hl; subst hl; simp
  | cons c rest ih =>
      intro l hl
      by_cases hc : c = '\n'
      · subst hc; rw [pySplit_cons_newline] at hl
        rcases List.mem_cons.mp hl with h | h
        · subst h; simp
        · exact ih l h
      · rw [pySplit_cons_ne _ _ hc] at hl
        rcases List.mem_cons.mp hl with h | h
        · subst h
          intro hmem
          rcases List.mem_cons.mp hmem with h' | h'
          · exact hc h'.symm
          · exact ih _ (headI_mem _ (pySplit_ne_nil rest)) h'
        · exact ih l (List.mem_of_mem_tail h)

theorem strippedText_mem_breakLine (l : List Char) (t : LogTok)
    (ht : t ∈ breakLineIntoSegments l) : ∀ c ∈ strippedText t, c ∈ l := by
  unfold breakLineIntoSegments at ht
  rcases List.mem_map.mp ht with ⟨i, _, rfl⟩
  rw [strippedText_segTok]
  intro c hc
  exact List.drop_subset _ _ (List.take_subset _ _ hc)

theorem record_mem_breakLine_shape (l s : List Char)
    (ht : LogTok.record s true ∈ breakLineIntoSegments l) :
    ∃ c, s = c ++ CONTINUED_TEXT := by
  unfold breakLineIntoSegments at ht
  rcases List.mem_map.mp ht with ⟨i, _, heq⟩
  rcases hb : decide (i < l.length / MAX_LENGTH +
      (if l.length % MAX_LENGTH ≠ 0 then 1 else 0) - 1) with _ | _ <;>
    rw [hb] at heq <;> simp [segTok] at heq
  exact ⟨_, heq.symm⟩

theorem processLines_noNl (ls : List (List Char)) : ∀ st : LineLogger,
    (∀ l ∈ ls, '\n' ∉ l) → '\n' ∉ st.buffer →
    (∀ t ∈ (processLines st ls).2, '\n' ∉ strippedText t) ∧
      '\n' ∉ (processLines st ls).1.buffer := by
  induction ls with
  | nil => intro st _ hb; exact ⟨by simp [processLines], hb⟩
  | cons l ls ih =>
      intro st hls hb
      have hl : '\n' ∉ l := hls l (by simp)
      cases ls with
      | nil =>
          by_cases h : MAX_LENGTH < l.length
          · refine ⟨?_, by simp [processLines, h]⟩
            simp only [processLines, if_pos h]
            intro t ht hmem
            exact hl (strippedText_mem_breakLine _ _ ht _ hmem)
          · exact ⟨by simp [processLines, h], by simpa [processLines, h] using hl⟩
      | cons l2 ls2 =>
          have hls' : ∀ a ∈ l2 :: ls2, '\n' ∉ a :=
            fun a ha => hls a (List.mem_cons_of_mem _ ha)
          by_cases h1 : MAX_LENGTH < l.length
          · have hrec := ih st hls' hb
            rcases hp : processLines st (l2 :: ls2) with ⟨st', more⟩
            rw [hp] at hrec
            simp only [processLines, if_pos h1, hp]
            refine ⟨?_, hrec.2⟩
            intro t ht
            rcases List.mem_append.mp ht with h | h
            · intro hmem; exact hl (strippedText_mem_breakLine _ _ h _ hmem)
            · rcases List.mem_cons.mp h with h' | h'
              · subst h'; simp [strippedText]
              · exact hrec.1 t h'
          · by_cases h2 : st.exceeded
            · have hrec := ih { st with exceeded := false } hls' hb
              rcases hp : processLines { st with exceeded := false } (l2 :: ls2)
                with ⟨st', more⟩
              rw [hp] at hrec
              simp only [processLines, if_neg h1, if_pos h2, hp]
              refine ⟨?_, hrec.2⟩
              intro t ht
              rcases List.mem_append.mp ht with h | h
              · intro hmem; exact hl (strippedText_mem_breakLine _ _ h _ hmem)
              · rcases List.mem_cons.mp h with h' | h'
                · subst h'; simp [strippedText]
                · exact hrec.1 t h'
            · have hrec := ih st hls' hb
              rcases hp : processLines st (l2 :: ls2) with ⟨st', more⟩
              rw [hp] at hrec
              simp only [processLines, if_neg h1, if_neg h2, hp]
              refine ⟨?_, hrec.2⟩
              intro t ht
              rcases List.mem_cons.mp ht with h | h
              · subst h; simpa [strippedText] using hl
              · rcases List.mem_cons.mp h with h' | h'
                · subst h'; simp [strippedText]
                · exact hrec.1 t h'

theorem processLines_suffixShape (ls : List (List Char)) : ∀ (st : LineLogger)
    (s : List Char), LogTok.record s true ∈ (processLines st ls).2 →
    ∃ c, s = c ++ CONTINUED_TEXT := by
  induction ls with
  | nil => intro st s hs; simp [processLines] at hs
  | cons l ls ih =>
      intro st s hs
      cases ls with
      | nil =>
          by_cases h : MAX_LENGTH < l.length
          · simp only [processLines, if_pos h] at hs
            exact record_mem_breakLine_shape _ _ hs
          · simp [processLines, h] at hs
      | cons l2 ls2 =>
          by_cases h1 : MAX_LENGTH < l.length
          · rcases hp : processLines st (l2 :: ls2) with ⟨st', more⟩
            simp only [processLines, if_pos h1, hp] at hs
            rcases List.mem_append.mp hs with h | h
            · exact record_mem_breakLine_shape _ _ h
            · rcases List.mem_cons.mp h with h' | h'
              · exact absurd h' (by simp)
              · exact ih st s (by rw [hp]; exact h')
          · by_cases h2 : st.exceeded
            · rcases hp : processLines { st with exceeded := false } (l2 :: ls2)
                with ⟨st', more⟩
              simp only [processLines, if_neg h1, if_pos h2, hp] at hs
              rcases List.mem_append.mp hs with h | h
              · exact record_mem_breakLine_shape _ _ h
              · rcases List.mem_cons.mp h with h' | h'
                · exact absurd h' (by simp)
                · exact ih { st with exceeded := false } s (by rw [hp]; exact h')
            · rcases hp : processLines st (l2 :: ls2) with ⟨st', more⟩
              simp only [processLines, if_neg h1, if_neg h2, hp] at hs
              rcases List.mem_cons.mp hs with h | h
              · exact absurd h (by simp)
              · rcases List.mem_cons.mp h with h' | h'
                · exact absurd h' (by simp)
                · exact ih st s (by rw [hp]; exact h')

theorem runLogger_noNl (chunks : List (List Char)) : ∀ st : LineLogger,
    '\n' ∉ st.buffer →
    (∀ t ∈ (runLogger st chunks).2, '\n' ∉ strippedText t) ∧
      '\n' ∉ (runLogger st chunks).1.buffer := by
  induction chunks with
  | nil => intro st hb; exact ⟨by simp [runLogger], hb⟩
  | cons d ds ih =>
      intro st hb
      rcases h1 : dataReceived st d with ⟨st1, t1⟩
      have h1' := processLines_noNl (pySplit (st.buffer ++ d)) st
        (mem_pySplit_noNl _) hb
      rw [show processLines st (pySplit (st.buffer ++ d)) = dataReceived st d from rfl,
        h1] at h1'
      rcases h2 : runLogger st1 ds with ⟨st2, t2⟩
      have h2' := ih st1 h1'.2
      rw [h2] at h2'
      simp only [runLogger, h1, h2]
      refine ⟨?_, h2'.2⟩
      intro t ht
      rcases List.mem_append.mp ht with h | h
      · exact h1'.1 t h
      · exact h2'.1 t h

theorem runLogger_suffixShape (chunks : List (List Char)) : ∀ (st : LineLogger)
    (s : List Char), LogTok.record s true ∈ (runLogger st chunks).2 →
    ∃ c, s = c ++ CONTINUED_TEXT := by
  induction chunks with
  | nil => intro st s hs; simp [runLogger] at hs
  | cons d ds ih =>
      intro st s hs
      rcases h1 : dataReceived st d with ⟨st1, t1⟩
      rcases h2 : runLogger st1 ds with ⟨st2, t2⟩
      simp only [runLogger, h1, h2] at hs
      rcases List.mem_append.mp hs with h | h
      · exact processLines_suffixShape (pySplit (st.buffer ++ d)) st s
          (by rw [show processLines st (pySplit (st.buffer ++ d))
                    = dataReceived st d from rfl, h1]; exact h)
      · exact ih st1 s (by rw [h2]; exact h)

/-! ### Grouping the records back into lines -/

theorem collectLinesAux_join (ts : List LogTok) : ∀ done cur,
    joinLines ((collectLinesAux ts done cur).1 ++ [(collectLinesAux ts done cur).2])
      = joinLines (done ++ [cur ++ recon ts]) := by
  induction ts with
  | nil => intro done cur; simp [collectLinesAux, recon]
  | cons t ts ih =>
      intro done cur
      cases t with
      | record s b =>
          simp only [collectLinesAux]
          rw [ih]
          simp [recon, List.append_assoc]
      | newline =>
          simp only [collectLinesAux]
          rw [ih]
          have : (done ++ [cur]) ++ [[] ++ recon ts] = done ++ [cur, recon ts] := by
            simp
          rw [this]
          rw [recon]
          exact joinLines_append_two done cur (recon ts)

theorem collectLinesAux_noNl (ts : List LogTok) : ∀ done cur,
    (∀ t ∈ ts, '\n' ∉ strippedText t) → (∀ l ∈ done, '\n' ∉ l) → '\n' ∉ cur →
    (∀ l ∈ (collectLinesAux ts done cur).1, '\n' ∉ l) ∧
      '\n' ∉ (collectLinesAux ts done cur).2 := by
  induction ts with
  | nil => intro done cur _ hd hc; exact ⟨by simpa [collectLinesAux] using hd, hc⟩
  | cons t ts ih =>
      intro done cur hts hd hc
      have hts' : ∀ t ∈ ts, '\n' ∉ strippedText t :=
        fun a ha => hts a (List.mem_cons_of_mem _ ha)
      cases t with
      | record s b =>
          simp only [collectLinesAux]
          apply ih _ _ hts' hd
          intro hmem
          rcases List.mem_append.mp hmem with h | h
          · exact hc h
          · exact hts (.record s b) (by simp) h
      | newline =>
          simp only [collectLinesAux]
          apply ih _ _ hts'
          · intro l hl
            rcases List.mem_append.mp hl with h | h
            · exact hd l h
            · rcases List.mem_singleton.mp h with rfl; exact hc
          · simp

theorem collectLines_join (ts : List LogTok) :
    joinLines ((collectLines ts).1 ++ [(collectLines ts).2]) = recon ts := by
  unfold collectLines
  rw [collectLinesAux_join]
  simp [joinLines]

/-- **C4** (log relay round trip).  For every sequence of byte chunks fed to
`DelayedStartupLineLogger.dataReceived` (arbitrary chunk boundaries), the
delivered records, with the `" (truncated, continued)"` suffix stripped from
the non-final segments of each long line (the suffixed tokens), reassemble —
grouping the stripped record texts at the line boundaries and appending the
undelivered tail still in `_buffer` — into exactly the original child output
split by newlines.  Moreover every suffixed record really is its stripped
text followed by the literal suffix. -/
theorem claim_C4_log_relay_roundtrip (chunks : List (List Char)) :
    (collectLines (runLogger {} chunks).2).1
        ++ [(collectLines (runLogger {} chunks).2).2 ++ (runLogger {} chunks).1.buffer]
      = pySplit chunks.flatten
    ∧ (∀ s, LogTok.record s true ∈ (runLogger {} chunks).2 →
        s = stripContinued s ++ CONTINUED_TEXT) := by
  constructor
  · rcases hrun : runLogger {} chunks with ⟨st, toks⟩
    have hrecon := runLogger_recon chunks {}
    rw [hrun] at hrecon
    simp only [hrun]
    have hnn := runLogger_noNl chunks {} (by simp)
    rw [hrun] at hnn
    have hcoll := collectLinesAux_noNl toks [] [] hnn.1 (by simp) (by simp)
    have hjoin := collectLines_join toks
    have hflatten : chunks.flatten = joinLines ((collectLines toks).1
        ++ [(collectLines toks).2 ++ st.buffer]) := by
      rw [← joinLines_append_last, hjoin]
      simpa using hrecon.symm
    rw [hflatten, pySplit_joinLines]
    · simp
    · intro l hl
      rcases List.mem_append.mp hl with h | h
      · exact hcoll.1 l h
      · rcases List.mem_singleton.mp h with rfl
        intro hmem
        rcases List.mem_append.mp hmem with h' | h'
        · exact hcoll.2 h'
        · exact hnn.2 h'
  · intro s hs
    rcases runLogger_suffixShape chunks {} s hs with ⟨c, rfl⟩
    rw [stripContinued_append]

/-! ### The concrete splitter example: "A"*2500 + newline + "B" + newline -/

theorem c5_pySplit :
    pySplit (List.replicate 2500 'A' ++ '\n' :: 'B' :: '\n' :: [])
      = [List.replicate 2500 'A', ['B'], []] := by
  rw [pySplit_append_noNl _ _
    (fun h => absurd (List.mem_replicate.mp h).2 (by decide))]
  rw [show pySplit ('\n' :: 'B' :: '\n' :: []) = [[], ['B'], []] from by decide]
  rw [show ([[], ['B'], []] : List (List Char)).headI = [] from rfl,
      show ([[], ['B'], []] : List (List Char)).tail = [['B'], []] from rfl,
      List.append_nil]

theorem c5_segs :
    breakLineIntoSegments (List.replicate 2500 'A')
      = [LogTok.record (List.replicate 1024 'A' ++ CONTINUED_TEXT) true,
         LogTok.record (List.replicate 1024 'A' ++ CONTINUED_TEXT) true,
         LogTok.record (List.replicate 452 'A') false] := by
  unfold breakLineIntoSegments
  simp only [List.length_replicate]
  rw [show 2500 / MAX_LENGTH + (if 2500 % MAX_LENGTH ≠ 0 then 1 else 0) = 3 from by
    norm_num [MAX_LENGTH]]
  rw [show List.range 3 = [0, 1, 2] from by decide]
  simp only [List.map_cons, List.map_nil, List.drop_replicate, List.take_replicate]
  rw [show min MAX_LENGTH (2500 - 0 * MAX_LENGTH) = 1024 from by norm_num [MAX_LENGTH],
      show min MAX_LENGTH (2500 - 1 * MAX_LENGTH) = 1024 from by norm_num [MAX_LENGTH],
      show min MAX_LENGTH (2500 - 2 * MAX_LENGTH) = 452 from by norm_num [MAX_LENGTH]]
  rw [show (decide (0 < 3 - 1)) = true from rfl,
      show (decide (1 < 3 - 1)) = true from rfl,
      show (decide (2 < 3 - 1)) = false from rfl]
  rw [show segTok (List.replicate 452 'A') false
        = LogTok.record (List.replicate 452 'A' ++ []) false from rfl,
      List.append_nil]
  rfl

theorem processLines_c5 (L : List Char) (hL : MAX_LENGTH < L.length) :
    processLines ({} : LineLogger) [L, ['B'], []]
      = ({ exceeded := false, buffer := [] },
         breakLineIntoSegments L
           ++ LogTok.newline :: [LogTok.record ['B'] false, LogTok.newline]) := by
  simp only [processLines]
  rw [if_pos hL]
  rfl

theorem c5_toks :
    (runLogger {} [List.replicate 2500 'A' ++ '\n' :: 'B' :: '\n' :: []]).2
      = breakLineIntoSegments (List.replicate 2500 'A')
          ++ [LogTok.newline, LogTok.record ['B'] false, LogTok.newline] := by
  have hmain : processLines ({} : LineLogger) [List.replicate 2500 'A', ['B'], []]
      = ({ exceeded := false, buffer := [] },
         breakLineIntoSegments (List.replicate 2500 'A')
           ++ LogTok.newline :: [LogTok.record ['B'] false, LogTok.newline]) :=
    processLines_c5 (List.replicate 2500 'A')
      (by rw [List.length_replicate]; decide)
  have h1 : pySplit (({} : LineLogger).buffer
      ++ (List.replicate 2500 'A' ++ '\n' :: 'B' :: '\n' :: []))
      = [List.replicate 2500 'A', ['B'], []] := by
    rw [show ({} : LineLogger).buffer = [] from rfl, List.nil_append, c5_pySplit]
  unfold runLogger dataReceived
  rw [h1, hmain]
  dsimp only
  rw [show (runLogger ({ exceeded := false, buffer := [] } : LineLogger) []).2
        = [] from rfl,
      List.append_nil]

theorem c5_records :
    emittedRecords (runLogger {}
        [List.replicate 2500 'A' ++ '\n' :: 'B' :: '\n' :: []]).2
      = [List.replicate 1024 'A' ++ CONTINUED_TEXT,
         List.replicate 1024 'A' ++ CONTINUED_TEXT,
         List.replicate 452 'A', ['B']] := by
  rw [c5_toks, c5_segs]
  rfl

/-- **C5** (long-line segmentation).  A line longer than `MAX_LENGTH = 1024`
is broken into `ceil(length / 1024)` segments; segment `i` is the 1024-byte
slice starting at `i * 1024` (so at most 1024 bytes before the suffix), and
it carries the `" (truncated, continued)"` suffix exactly when it is not the
last segment (`segTok` appends the suffix exactly when its flag is true).
Concretely, the single chunk `"A"*2500 + "\n" + "B\n"` is delivered as the
records `"A"*1024 + suffix`, `"A"*1024 + suffix`, `"A"*452`, then `"B"`. -/
theorem claim_C5_long_line_segments :
    (∀ l : List Char, MAX_LENGTH < l.length →
      (breakLineIntoSegments l).length = (l.length + MAX_LENGTH - 1) / MAX_LENGTH
      ∧ ∀ i, ∀ h : i < (breakLineIntoSegments l).length,
          (breakLineIntoSegments l).get ⟨i, h⟩
            = segTok ((l.drop (i * MAX_LENGTH)).take MAX_LENGTH)
                (decide (i < (breakLineIntoSegments l).length - 1))
          ∧ ((l.drop (i * MAX_LENGTH)).take MAX_LENGTH).length ≤ MAX_LENGTH)
    ∧ emittedRecords (runLogger {}
          [List.replicate 2500 'A' ++ '\n' :: 'B' :: '\n' :: []]).2
        = [List.replicate 1024 'A' ++ CONTINUED_TEXT,
           List.replicate 1024 'A' ++ CONTINUED_TEXT,
           List.replicate 452 'A', ['B']] := by
  refine ⟨fun l _ => ⟨?_, fun i h => ⟨?_, ?_⟩⟩, c5_records⟩
  · simp only [breakLineIntoSegments, List.length_map, List.length_range]
    have h1 := Nat.div_add_mod l.length MAX_LENGTH
    simp only [MAX_LENGTH] at *
    split <;> omega
  · simp only [breakLineIntoSegments, List.length_map, List.length_range] at h ⊢
    simp [List.get_eq_getElem]
  · simp only [List.length_take]
    exact min_le_left _ _

/-- Witness for C5: the general part applied to the 2500-character line. -/
theorem claim_C5_long_line_segments_witness :
    MAX_LENGTH < (List.replicate 2500 'A' : List Char).length
    ∧ (breakLineIntoSegments (List.replicate 2500 'A')).length
        = ((List.replicate 2500 'A' : List Char).length + MAX_LENGTH - 1) / MAX_LENGTH :=
  ⟨by simp [MAX_LENGTH],
   (claim_C5_long_line_segments.1 (List.replicate 2500 'A')
     (by simp [MAX_LENGTH])).1⟩

/-! ## Child environment whitelist (`_computeEnvVars`) -/

def requiredVars : List String :=
  ["PATH", "PYTHONPATH", "LD_LIBRARY_PATH", "LD_PRELOAD",
   "DYLD_LIBRARY_PATH", "DYLD_INSERT_LIBRARIES"]

def optionalVars : List String :=
  ["PYTHONHASHSEED", "KRB5_KTNAME", "ORACLE_HOME",
   "VERSIONER_PYTHON_PREFER_32_BIT"]

/-- `_computeEnvVars(parent)`: every required variable is copied with
`parent.get(varname, "")`; an optional variable is copied only when present
in the parent. -/
def computeEnvVars (parent : List (String × String)) : List (String × String) :=
  let result := requiredVars.foldl
    (fun acc v => setA acc v ((lookupA parent v).getD "")) []
  optionalVars.foldl
    (fun acc v => if (lookupA parent v).isSome
                  then setA acc v ((lookupA parent v).getD "")
                  else acc) result

theorem lookup_fold_required (parent : List (String × String))
    (vs : List String) (k : String) : ∀ acc,
    lookupA (vs.foldl (fun acc v => setA acc v ((lookupA parent v).getD "")) acc) k
      = if k ∈ vs then some ((lookupA parent k).getD "") else lookupA acc k := by
  induction vs with
  | nil => intro acc; simp
  | cons v vs ih =>
      intro acc
      rw [List.foldl_cons, ih]
      by_cases hv : v = k
      · subst hv
        by_cases hm : v ∈ vs <;> simp [hm, lookupA_setA]
      · have : ¬ k = v := fun h => hv h.symm
        by_cases hm : k ∈ vs <;> simp [hm, this, hv, lookupA_setA]

theorem lookup_fold_optional (parent : List (String × String))
    (vs : List String) (k : String) : ∀ acc,
    lookupA (vs.foldl (fun acc v => if (lookupA parent v).isSome
        then setA acc v ((lookupA parent v).getD "") else acc) acc) k
      = if k ∈ vs ∧ (lookupA parent k).isSome
        then lookupA parent k else lookupA acc k := by
  induction vs with
  | nil => intro acc; simp
  | cons v vs ih =>
      intro acc
      rw [List.foldl_cons, ih]
      by_cases hv : v = k
      · subst hv
        rcases hp : lookupA parent v with _ | x
        · by_cases hm : v ∈ vs <;> simp [hm, hp]
        · by_cases hm : v ∈ vs <;> simp [hm, hp, lookupA_setA]
      · have hkv : ¬ k = v := fun h => hv h.symm
        rcases hp : lookupA parent v with _ | x
        · by_cases hm : k ∈ vs <;> simp [hm, hv, hkv, hp]
        · by_cases hm : k ∈ vs <;> simp [hm, hv, hkv, hp, lookupA_setA]

theorem required_not_optional (k : String) (h : k ∈ requiredVars) :
    k ∉ optionalVars := by
  fin_cases h <;> decide

/-- **C9** (environment propagation).  For every parent environment and
every variable name `k`, the child environment computed by
`_computeEnvVars` maps `k` to: the parent's value (defaulting to `""`) when
`k` is one of the six required variables; the parent's value only when
present for the four optional variables; and nothing at all otherwise —
no other parent variable appears in the result. -/
theorem claim_C9_env_whitelist (parent : List (String × String)) (k : String) :
    lookupA (computeEnvVars parent) k =
      if k ∈ requiredVars then some ((lookupA parent k).getD "")
      else if k ∈ optionalVars then lookupA parent k
      else none := by
  unfold computeEnvVars
  rw [lookup_fold_optional, lookup_fold_required]
  by_cases hr : k ∈ requiredVars
  · have hno : k ∉ optionalVars := required_not_optional k hr
    simp [hr, hno]
  · by_cases ho : k ∈ optionalVars
    · rcases hp : lookupA parent k with _ | x <;> simp [hr, ho, hp, lookupA]
    · simp [hr, ho, lookupA]

/-! ## The logging protocol (`DelayedStartupLoggingProtocol`)

`outReceived` feeds data to the line logger and records whether the chunk
ended with a newline (`self.empty = data[-1] == '\x5cn'`; `empty` starts
truthy).  `processEnded` injects one `'\x5cn'` into the logger when the last
chunk did not end with one — flushing the trailing partial line — before the
monitor's `processEnded(name)` is invoked. -/

structure LoggingProtocol where
  logger : LineLogger := {}
  empty : Bool := true
deriving DecidableEq

def outReceived (p : LoggingProtocol) (data : List Char) :
    LoggingProtocol × List LogTok :=
  let (lg, toks) := dataReceived p.logger data
  ({ logger := lg, empty := data.getLast? == some '\n' }, toks)

def runProto (p : LoggingProtocol) : List (List Char) → LoggingProtocol × List LogTok
  | [] => (p, [])
  | d :: ds =>
      let (p1, t1) := outReceived p d
      let (p2, t2) := runProto p1 ds
      (p2, t1 ++ t2)

/-- The protocol's `processEnded`, up to the final call of the monitor's
`processEnded(name)` (which the source performs after this flush). -/
def protoProcessEnded (p : LoggingProtocol) : LoggingProtocol × List LogTok :=
  if p.empty then (p, [])
  else
    let (lg, toks) := dataReceived p.logger ['\n']
    ({ p with logger := lg }, toks)

/-- Whether the last chunk of output ended with a newline (true when there
was no output at all). -/
def endsWithNewline (chunks : List (List Char)) : Bool :=
  match chunks.getLast? with
  | none => true
  | some c => c.getLast? == some '\n'

def lastD (xs : List (List Char)) : List Char :=
  match xs with
  | [] => []
  | [l] => l
  | _ :: next :: rest => lastD (next :: rest)

/-! ### Support lemmas for the protocol -/

theorem breakLineIntoSegments_nil : breakLineIntoSegments [] = [] := by
  unfold breakLineIntoSegments
  norm_num [MAX_LENGTH]

theorem breakLineIntoSegments_short (l : List Char) (h0 : l ≠ [])
    (hle : l.length ≤ MAX_LENGTH) :
    breakLineIntoSegments l = [LogTok.record l false] := by
  unfold breakLineIntoSegments
  dsimp only
  have hpos : 0 < l.length := List.length_pos.mpr h0
  rw [show l.length / MAX_LENGTH + (if l.length % MAX_LENGTH ≠ 0 then 1 else 0) = 1 by
    simp only [MAX_LENGTH] at *
    split <;> omega]
  rw [show List.range 1 = [0] from rfl]
  simp [segTok, List.take_of_length_le hle]

theorem processLines_buffer_le (ls : List (List Char)) : ∀ st : LineLogger,
    st.buffer.length ≤ MAX_LENGTH →
    (processLines st ls).1.buffer.length ≤ MAX_LENGTH := by
  induction ls with
  | nil => intro st h; exact h
  | cons l ls ih =>
      intro st h
      cases ls with
      | nil =>
          by_cases hl : MAX_LENGTH < l.length <;> simp [processLines, hl] <;> omega
      | cons l2 ls2 =>
          by_cases h1 : MAX_LENGTH < l.length
          · rcases hp : processLines st (l2 :: ls2) with ⟨st', more⟩
            have := ih st h; rw [hp] at this
            simpa [processLines, h1, hp] using this
          · by_cases h2 : st.exceeded
            · rcases hp : processLines { st with exceeded := false } (l2 :: ls2)
                with ⟨st', more⟩
              have := ih { st with exceeded := false } h; rw [hp] at this
              simpa [processLines, h1, h2, hp] using this
            · rcases hp : processLines st (l2 :: ls2) with ⟨st', more⟩
              have := ih st h; rw [hp] at this
              simpa [processLines, h1, h2, hp] using this

theorem processLines_last_or_exceeded (ls : List (List Char)) : ∀ st : LineLogger,
    ls ≠ [] →
    (processLines st ls).1.buffer = lastD ls ∨
      (processLines st ls).1.exceeded = true := by
  induction ls with
  | nil => intro st h; contradiction
  | cons l ls ih =>
      intro st _
      cases ls with
      | nil =>
          by_cases hl : MAX_LENGTH < l.length <;> simp [processLines, hl, lastD]
      | cons l2 ls2 =>
          have hrec := ih st (by simp)
          rw [show lastD (l :: l2 :: ls2) = lastD (l2 :: ls2) from rfl]
          by_cases h1 : MAX_LENGTH < l.length
          · rcases hp : processLines st (l2 :: ls2) with ⟨st', more⟩
            rw [hp] at hrec
            simpa [processLines, h1, hp] using hrec
          · by_cases h2 : st.exceeded
            · have hrec2 := ih { st with exceeded := false } (by simp)
              rcases hp : processLines { st with exceeded := false } (l2 :: ls2)
                with ⟨st', more⟩
              rw [hp] at hrec2
              simpa [processLines, h1, h2, hp] using hrec2
            · rcases hp : processLines st (l2 :: ls2) with ⟨st', more⟩
              rw [hp] at hrec
              simpa [processLines, h1, h2, hp] using hrec

theorem lastD_cons_ne (x : List Char) (r : List (List Char)) (h : r ≠ []) :
    lastD (x :: r) = lastD r := by
  cases r with
  | nil => contradiction
  | cons y t => rfl

theorem lastD_pySplit_concat (c : Char) (hc : c ≠ '\n') : ∀ s : List Char,
    lastD (pySplit (s ++ [c])) ≠ [] := by
  intro s
  induction s with
  | nil =>
      rw [List.nil_append, pySplit_cons_ne _ _ hc]
      simp [pySplit, lastD]
  | cons a s ih =>
      rw [List.cons_append]
      by_cases ha : a = '\n'
      · subst ha
        rw [pySplit_cons_newline, lastD_cons_ne _ _ (pySplit_ne_nil _)]
        exact ih
      · rw [pySplit_cons_ne _ _ ha]
        rcases hr : pySplit (s ++ [c]) with _ | ⟨l, ls⟩
        · exact absurd hr (pySplit_ne_nil _)
        · cases ls with
          | nil =>
              rw [hr] at ih
              simp only [List.headI_cons, List.tail_cons, lastD] at ih ⊢
              simp [ih]
          | cons l2 ls2 =>
              rw [hr] at ih
              simp only [List.headI_cons, List.tail_cons]
              rw [lastD_cons_ne _ _ (by simp),
                  ← lastD_cons_ne l (l2 :: ls2) (by simp)]
              exact ih

theorem runLogger_fst_append (xs : List (List Char)) (d : List Char) :
    ∀ st : LineLogger,
    (runLogger st (xs ++ [d])).1 = (dataReceived (runLogger st xs).1 d).1 := by
  induction xs with
  | nil =>
      intro st
      rcases h : dataReceived st d with ⟨st1, t1⟩
      simp [runLogger, h]
  | cons x xs ih =>
      intro st
      rcases h1 : dataReceived st x with ⟨st1, t1⟩
      rcases h2 : runLogger st1 (xs ++ [d]) with ⟨st2, t2⟩
      rcases h3 : runLogger st1 xs with ⟨st3, t3⟩
      have := ih st1
      rw [h2, h3] at this
      simp [runLogger, h1, h2, h3, this]

theorem runProto_logger (chunks : List (List Char)) : ∀ p : LoggingProtocol,
    (runProto p chunks).1.logger = (runLogger p.logger chunks).1
    ∧ (runProto p chunks).2 = (runLogger p.logger chunks).2 := by
  induction chunks with
  | nil => intro p; simp [runProto, runLogger]
  | cons d ds ih =>
      intro p
      rcases h1 : dataReceived p.logger d with ⟨st1, t1⟩
      have hout : outReceived p d
          = ({ logger := st1, empty := d.getLast? == some '\n' }, t1) := by
        simp [outReceived, h1]
      have hih := ih { logger := st1, empty := (d.getLast? == some '\n') }
      rcases h2 : runProto { logger := st1, empty := (d.getLast? == some '\n') } ds
        with ⟨p2, t2⟩
      rcases h3 : runLogger st1 ds with ⟨st2, t2'⟩
      rw [h2] at hih
      simp only at hih
      rw [h3] at hih
      simp only at hih
      simp only [runProto, hout, h2, runLogger, h1, h3]
      exact ⟨hih.1, by rw [hih.2]⟩

theorem runProto_empty (chunks : List (List Char)) : ∀ p : LoggingProtocol,
    chunks ≠ [] → (runProto p chunks).1.empty = endsWithNewline chunks := by
  induction chunks with
  | nil => intro p h; contradiction
  | cons d ds ih =>
      intro p _
      rcases hdr : dataReceived p.logger d with ⟨lg, toks⟩
      have h1 : outReceived p d
          = ({ logger := lg, empty := (d.getLast? == some '\n') }, toks) := by
        simp [outReceived, hdr]
      cases ds with
      | nil => simp [runProto, h1, endsWithNewline]
      | cons d2 ds2 =>
          have hih := ih { logger := lg, empty := (d.getLast? == some '\n') }
            (by simp)
          rcases h2 : runProto { logger := lg, empty := (d.getLast? == some '\n') }
            (d2 :: ds2) with ⟨p2, t2⟩
          rw [h2] at hih
          simp only at hih
          rw [runProto]
          simp only [h1]
          simp only [h2]
          simpa [endsWithNewline, List.getLast?_cons_cons] using hih

theorem runLogger_buffer_le (chunks : List (List Char)) : ∀ st : LineLogger,
    st.buffer.length ≤ MAX_LENGTH →
    (runLogger st chunks).1.buffer.length ≤ MAX_LENGTH := by
  induction chunks with
  | nil => intro st h; exact h
  | cons d ds ih =>
      intro st h
      rcases h1 : dataReceived st d with ⟨st1, t1⟩
      rcases h2 : runLogger st1 ds with ⟨st2, t2⟩
      have hle1 : st1.buffer.length ≤ MAX_LENGTH := by
        have := processLines_buffer_le (pySplit (st.buffer ++ d)) st h
        rw [show processLines st (pySplit (st.buffer ++ d)) = dataReceived st d
          from rfl, h1] at this
        exact this
      have := ih st1 hle1
      rw [h2] at this
      simpa [runLogger, h1, h2] using this

theorem dataReceived_newline (st : LineLogger) (hb : '\n' ∉ st.buffer)
    (hle : st.buffer.length ≤ MAX_LENGTH) :
    dataReceived st ['\n']
      = ({ exceeded := false, buffer := [] },
         (if st.exceeded then breakLineIntoSegments st.buffer
          else [LogTok.record st.buffer false]) ++ [LogTok.newline]) := by
  obtain ⟨ex, buf⟩ := st
  simp only at hb hle ⊢
  unfold dataReceived
  have hsplit : pySplit ((⟨ex, buf⟩ : LineLogger).buffer ++ ['\n']) = [buf, []] := by
    show pySplit (buf ++ ['\n']) = [buf, []]
    rw [pySplit_append_noNl _ _ hb]
    simp [pySplit]
  rw [hsplit]
  simp only [processLines]
  rw [if_neg (by simp only [MAX_LENGTH] at *; omega : ¬ MAX_LENGTH
    < ((⟨ex, buf⟩ : LineLogger).exceeded, buf).2.length)]
  cases ex <;> simp [processLines, MAX_LENGTH]

/-- **C10** (trailing-line flush at process end).  The logging protocol
tracks whether the last delivered chunk ended with a newline; on process
end, when it did not, one newline is injected into the line logger — so the
trailing partial line (if still buffered) is emitted as a log record, and
the full reassembled output becomes the child's output plus the injected
newline — before the monitor's `processEnded(name)` is called.  When the
last chunk did end with a newline (or no output was ever received), the
flush emits nothing, in particular no empty record. -/
theorem claim_C10_trailing_newline (chunks : List (List Char))
    (hne : ∀ c ∈ chunks, c ≠ []) :
    (endsWithNewline chunks = true →
        (protoProcessEnded (runProto {} chunks).1).2 = [])
    ∧ (endsWithNewline chunks = false →
        emittedRecords (protoProcessEnded (runProto {} chunks).1).2
          = (if (runProto {} chunks).1.logger.buffer = [] then []
             else [(runProto {} chunks).1.logger.buffer])
        ∧ recon ((runProto {} chunks).2
              ++ (protoProcessEnded (runProto {} chunks).1).2)
            = chunks.flatten ++ ['\n']
        ∧ (protoProcessEnded (runProto {} chunks).1).1.logger.buffer = []) := by
  have hlog := runProto_logger chunks {}
  constructor
  · intro hend
    by_cases hc : chunks = []
    · subst hc
      simp [runProto, protoProcessEnded]
    · have := runProto_empty chunks {} hc
      rw [hend] at this
      simp [protoProcessEnded, this]
  · intro hend
    have hc : chunks ≠ [] := by
      intro h; subst h; simp [endsWithNewline] at hend
    have hempty : (runProto {} chunks).1.empty = false := by
      rw [runProto_empty chunks {} hc, hend]
    set L := (runLogger ({} : LineLogger) chunks).1 with hL
    have hbufL : (runProto {} chunks).1.logger = L := by rw [hlog.1]
    have hnn := runLogger_noNl chunks {} (by simp)
    have hble : L.buffer.length ≤ MAX_LENGTH :=
      runLogger_buffer_le chunks {} (by simp [MAX_LENGTH])
    have hdrn := dataReceived_newline L hnn.2 hble
    have hpe : protoProcessEnded (runProto {} chunks).1
        = ({ (runProto {} chunks).1 with logger := { exceeded := false, buffer := [] } },
           (if L.exceeded then breakLineIntoSegments L.buffer
            else [LogTok.record L.buffer false]) ++ [LogTok.newline]) := by
      unfold protoProcessEnded
      rw [if_neg (by rw [hempty]; simp)]
      rw [hbufL, hdrn]
    -- the trailing partial line is nonempty whenever the logger is not in
    -- exceeded mode
    have hbufne : L.exceeded = false → L.buffer ≠ [] := by
      intro hexc
      rcases List.eq_nil_or_concat chunks with h | ⟨xs, d, hcat⟩
      · exact absurd h hc
      · rw [List.concat_eq_append] at hcat
        subst hcat
        have hdne : d ≠ [] := hne d (by simp)
        rcases List.eq_nil_or_concat d with h | ⟨d', c, hcat2⟩
        · exact absurd h hdne
        · rw [List.concat_eq_append] at hcat2
          subst hcat2
          have hcn : c ≠ '\n' := by
            intro hcc
            rw [endsWithNewline, List.getLast?_concat] at hend
            simp [hcc, List.getLast?_concat] at hend
          have hLs : L = (dataReceived (runLogger ({} : LineLogger) xs).1
              (d' ++ [c])).1 := by
            rw [hL, runLogger_fst_append]
          have hlast := processLines_last_or_exceeded
            (pySplit ((runLogger ({} : LineLogger) xs).1.buffer ++ (d' ++ [c])))
            (runLogger ({} : LineLogger) xs).1 (pySplit_ne_nil _)
          rw [show processLines (runLogger ({} : LineLogger) xs).1
              (pySplit ((runLogger ({} : LineLogger) xs).1.buffer ++ (d' ++ [c])))
              = dataReceived (runLogger ({} : LineLogger) xs).1 (d' ++ [c])
            from rfl, ← hLs] at hlast
          rcases hlast with h | h
          · rw [h, ← List.append_assoc]
            exact lastD_pySplit_concat c hcn _
          · rw [hexc] at h; simp at h
    refine ⟨?_, ?_, ?_⟩
    · rw [hpe, hbufL]
      rcases hexc : L.exceeded with _ | _
      · have hbne := hbufne hexc
        simp [emittedRecords, hbne]
      · simp only [if_pos rfl]
        by_cases hb0 : L.buffer = []
        · simp [hb0, breakLineIntoSegments_nil, emittedRecords]
        · rw [breakLineIntoSegments_short L.buffer hb0 hble]
          simp [emittedRecords, hb0]
    · rw [hpe]
      rw [recon_append, hlog.2]
      have hrecon := runLogger_recon chunks {}
      have : recon ((if L.exceeded then breakLineIntoSegments L.buffer
          else [LogTok.record L.buffer false]) ++ [LogTok.newline])
          = L.buffer ++ ['\n'] := by
        rcases hexc : L.exceeded with _ | _
        · simp [recon_append, recon, strippedText]
        · rw [if_pos rfl, recon_append, recon_breakLineIntoSegments]
          simp [recon]
      rw [this, ← List.append_assoc]
      rw [show recon (runLogger ({} : LineLogger) chunks).2 ++ L.buffer
          = chunks.flatten from by simpa using hrecon]
    · rw [hpe]

/-- Witness for C10: a single chunk `"hi"` without a trailing newline. -/
theorem claim_C10_trailing_newline_witness :
    (∀ c ∈ [['h', 'i']], c ≠ ([] : List Char))
    ∧ ((endsWithNewline [['h', 'i']] = true →
        (protoProcessEnded (runProto {} [['h', 'i']]).1).2 = [])
      ∧ (endsWithNewline [['h', 'i']] = false →
        emittedRecords (protoProcessEnded (runProto {} [['h', 'i']]).1).2
          = (if (runProto {} [['h', 'i']]).1.logger.buffer = [] then []
             else [(runProto {} [['h', 'i']]).1.logger.buffer])
        ∧ recon ((runProto {} [['h', 'i']]).2
              ++ (protoProcessEnded (runProto {} [['h', 'i']]).1).2)
            = ([['h', 'i']] : List (List Char)).flatten ++ ['\n']
        ∧ (protoProcessEnded (runProto {} [['h', 'i']]).1).1.logger.buffer = [])) :=
  ⟨by decide, claim_C10_trailing_newline [['h', 'i']] (by decide)⟩

/-! ## The process monitor (`DelayedStartupProcessMonitor`)

The twisted reactor is embedded as a list of pending one-shot timers plus a
rational clock (`now`); `callLater(delay, f)` appends a timer with a fresh
id firing at `now + delay`, and `cancel` removes it.  The three kinds of
callbacks the monitor ever schedules are reified as `TimerAction`.  Child
processes are identified by fresh pids; `live` is the set of spawned
children that have not yet exited.  Observable effects (signals, spawns,
deferred firings) are collected as `Event`s. -/

inductive TimerAction
  | forceStop (pid : Nat)
  | restartProc (name : String)
  | delayedStart (name : String)
deriving DecidableEq

structure Timer where
  tid : Nat
  time : ℚ
  action : TimerAction
deriving DecidableEq

structure ProcessRecord where
  argv : List String
  env : List (String × String)
  uid : Option Nat
  gid : Option Nat
deriving DecidableEq

inductive Event
  | sigTerm (pid : Nat)
  | sigKill (pid : Nat)
  | spawn (pid : Nat) (name : String)
  | fireDeferred (name : String)
  | aggregateFired
deriving DecidableEq

structure MonitorState where
  now : ℚ
  nextTid : Nat
  nextPid : Nat
  pending : List Timer
  processes : List (String × ProcessRecord)
  protocols : List (String × Nat)
  delay : List (String × ℚ)
  timeStarted : List (String × ℚ)
  murder : List (String × Nat)
  restart : List (String × Nat)
  stopping : Bool
  running : Bool
  deferreds : List String
  live : List (Nat × String)
  pendingStarts : Nat
  delayInterval : ℚ
  threshold : ℚ
  killTime : ℚ
  minRestartDelay : ℚ
  maxRestartDelay : ℚ
deriving DecidableEq

/-- `DelayedStartupProcessMonitor.__init__` with the class attribute
defaults (`threshold = 1`, `killTime = 5`, `minRestartDelay = 1`,
`maxRestartDelay = 3600`); `delayInterval` comes from
`config.MultiProcess.StaggeredStartup`. -/
def initMonitor (delayInterval : ℚ) : MonitorState :=
  { now := 0, nextTid := 0, nextPid := 0, pending := [], processes := [],
    protocols := [], delay := [], timeStarted := [], murder := [], restart := [],
    stopping := false, running := false, deferreds := [], live := [],
    pendingStarts := 0, delayInterval := delayInterval,
    threshold := 1, killTime := 5, minRestartDelay := 1, maxRestartDelay := 3600 }

/-- `reactor.callLater(d, action)`: returns the updated state and the id of
the new `DelayedCall`. -/
def callLater (s : MonitorState) (d : ℚ) (a : TimerAction) : MonitorState × Nat :=
  ({ s with pending := s.pending ++ [⟨s.nextTid, s.now + d, a⟩],
            nextTid := s.nextTid + 1 },
   s.nextTid)

/-- `DelayedCall.cancel()` (a no-op when the call is no longer active). -/
def cancelTimer (s : MonitorState) (tid : Nat) : MonitorState :=
  { s with pending := s.pending.filter (fun t => t.tid ≠ tid) }

/-- Whether the child with this pid is still alive. -/
def pidAlive (s : MonitorState) (pid : Nat) : Bool :=
  s.live.any (fun q => q.1 == pid)

/-- `DelayedStartupProcessMonitor.startProcess`: schedule the actual spawn
`delayInterval * _pendingStarts` seconds from now, then increment
`_pendingStarts` (the decrement happens inside the deferred callback). -/
def startProcess (s : MonitorState) (name : String) : MonitorState :=
  let interval := s.delayInterval * (s.pendingStarts : ℚ)
  let s := { s with pendingStarts := s.pendingStarts + 1 }
  (callLater s interval (.delayedStart name)).1

/-- `DelayedStartupProcessMonitor.reallyStartProcess`: a no-op when a
protocol for this name is already alive; otherwise records the protocol and
the start time and spawns the child.  (When the name is not registered the
source would raise `KeyError` at `self.processes[name]`; that branch is
unreachable in the traces considered here, where only registered names are
started.) -/
def reallyStartProcess (s : MonitorState) (name : String) :
    MonitorState × List Event :=
  if (lookupA s.protocols name).isSome then (s, [])
  else
    match lookupA s.processes name with
    | none => (s, [])
    | some _ =>
      let pid := s.nextPid
      ({ s with protocols := setA s.protocols name pid,
                timeStarted := setA s.timeStarted name s.now,
                nextPid := pid + 1,
                live := s.live ++ [(pid, name)] },
       [Event.spawn pid name])

/-- `DelayedStartupProcessMonitor.addProcessObject`: registers the record
and the initial restart delay, and starts the process at once when the
service is already running.  Note there is no duplicate-name check. -/
def addProcessObject (s : MonitorState) (name : String) (r : ProcessRecord) :
    MonitorState :=
  let s := { s with processes := setA s.processes name r,
                    delay := setA s.delay name s.minRestartDelay }
  if s.running then startProcess s name else s

/-- `DelayedStartupProcessMonitor.addProcess` wraps the argv in a
`SimpleProcessObject` and delegates to `addProcessObject`. -/
def addProcess (s : MonitorState) (name : String) (args : List String)
    (uid gid : Option Nat) (env : List (String × String)) : MonitorState :=
  addProcessObject s name { argv := args, env := env, uid := uid, gid := gid }

/-- `DelayedStartupProcessMonitor.startService`: `Service.startService` sets
`running`, then every registered name is started in insertion order. -/
def startService (s : MonitorState) : MonitorState :=
  let s1 := { s with running := true }
  (s.processes.map Prod.fst).foldl startProcess s1

/-- `DelayedStartupProcessMonitor.stopProcess`: raises `KeyError` (`none`)
for an unknown name; for a known name with a live protocol sends SIGTERM
and schedules the `_forceStopProcess` escalation `killTime` seconds later,
recording it in `self.murder`; when the process already exited the
`ProcessExitedAlready` is swallowed and nothing is scheduled. -/
def stopProcess (s : MonitorState) (name : String) :
    Option (MonitorState × List Event) :=
  if (lookupA s.processes name).isNone then none
  else some <|
    match lookupA s.protocols name with
    | none => (s, [])
    | some pid =>
      if pidAlive s pid then
        let (s1, tid) := callLater s s.killTime (.forceStop pid)
        ({ s1 with murder := setA s1.murder name tid }, [Event.sigTerm pid])
      else (s, [])

/-- `DelayedStartupProcessMonitor.processEnded(name)`: cancel the pending
SIGKILL, drop the protocol, compute the back-off (`delay` doubles up to
`maxRestartDelay` on a fast exit, resets to `minRestartDelay` otherwise),
schedule the restart when the service is still running, and when stopping
fire the per-name deferred (and thereby the `gatherResults` aggregate when
it was the last one). -/
def processEnded (s : MonitorState) (name : String) : MonitorState × List Event :=
  let s :=
    match lookupA s.murder name with
    | some tid => { cancelTimer s tid with murder := eraseA s.murder name }
    | none => s
  let s := { s with protocols := eraseA s.protocols name }
  let d := (lookupA s.delay name).getD s.minRestartDelay
  let t0 := (lookupA s.timeStarted name).getD 0
  let nextDelay : ℚ :=
    if s.now - t0 < s.threshold then d else 0
  let s :=
    if s.now - t0 < s.threshold then
      { s with delay := setA s.delay name (min (d * 2) s.maxRestartDelay) }
    else
      { s with delay := setA s.delay name s.minRestartDelay }
  let s :=
    if s.running && (lookupA s.processes name).isSome then
      let r := callLater s nextDelay (.restartProc name)
      { r.1 with restart := setA r.1.restart name r.2 }
    else s
  let fired := s.stopping && s.deferreds.contains name
  ({ s with deferreds := if fired then s.deferreds.erase name else s.deferreds },
   if fired then
     Event.fireDeferred name ::
       (if (s.deferreds.erase name).isEmpty then [Event.aggregateFired] else [])
   else [])

/-- `DelayedStartupProcessMonitor.stopService`: set `stopping`, create one
deferred per registered process, let `Service.stopService` clear `running`,
cancel the active restart timers, and stop the children in reverse
insertion order.  The returned `gatherResults` aggregate is modelled by the
`deferreds` list: it has fired exactly when `deferreds` is empty (so with
no registered processes it fires immediately). -/
def stopService (s : MonitorState) : MonitorState × List Event :=
  let s1 := { s with stopping := true,
                     deferreds := s.processes.map Prod.fst,
                     running := false }
  let s2 := s1.restart.foldl (fun acc p => cancelTimer acc p.2) s1
  let step := fun (acc : MonitorState × List Event) (name : String) =>
    match stopProcess acc.1 name with
    | some (s', evs) => (s', acc.2 ++ evs)
    | none => acc
  let r := ((s2.processes.map Prod.fst).reverse).foldl step (s2, [])
  (r.1, r.2 ++ (if r.1.deferreds.isEmpty then [Event.aggregateFired] else []))

/-- `_forceStopProcess` / the body of a fired timer: the SIGKILL escalation
(ignored when the child exited already), a restart (`startProcess`), or a
staggered start (decrement `_pendingStarts`, then `reallyStartProcess`). -/
def runTimerAction (s : MonitorState) : TimerAction → MonitorState × List Event
  | .forceStop pid =>
      if pidAlive s pid then (s, [Event.sigKill pid]) else (s, [])
  | .restartProc name => (startProcess s name, [])
  | .delayedStart name =>
      reallyStartProcess { s with pendingStarts := s.pendingStarts - 1 } name

/-- A child exit at time `t`: the OS removes the pid from the live set and
the protocol's `processEnded` notifies the monitor. -/
def exitAt (s : MonitorState) (pid : Nat) (name : String) (t : ℚ) :
    MonitorState × List Event :=
  processEnded { s with now := t, live := s.live.erase (pid, name) } name

/-- A timer firing at its scheduled time. -/
def fireAt (s : MonitorState) (τ : Timer) : MonitorState × List Event :=
  runTimerAction { s with now := τ.time, pending := s.pending.erase τ } τ.action

/-- Environment steps: a live child exits at some time `t ≥ now`, or a
pending timer fires at its scheduled time (times never decrease). -/
inductive DynStep : MonitorState → List Event → MonitorState → Prop
  | exit (s : MonitorState) (pid : Nat) (name : String) (t : ℚ)
      (hmem : (pid, name) ∈ s.live) (ht : s.now ≤ t) :
      DynStep s (exitAt s pid name t).2 (exitAt s pid name t).1
  | fire (s : MonitorState) (τ : Timer)
      (hmem : τ ∈ s.pending) (ht : s.now ≤ τ.time) :
      DynStep s (fireAt s τ).2 (fireAt s τ).1

/-- Reflexive-transitive closure of `DynStep`, collecting events. -/
inductive DynReach : MonitorState → List Event → MonitorState → Prop
  | refl (s : MonitorState) : DynReach s [] s
  | step {s : MonitorState} {evs : List Event} {σ : MonitorState}
      {evs' : List Event} {σ' : MonitorState} :
      DynReach s evs σ → DynStep σ evs' σ' → DynReach s (evs ++ evs') σ'

/-! ### A deterministic runner for the concrete scenarios

The twisted reactor fires the due `DelayedCall` with the earliest deadline
first (FIFO among equal deadlines, matching insertion order here). -/

def earliestTimer (ts : List Timer) : Option Timer :=
  ts.foldl (fun acc τ => match acc with
    | none => some τ
    | some τ' => if τ.time < τ'.time then some τ else acc) none

def fireNext (s : MonitorState) : MonitorState × List Event :=
  match earliestTimer s.pending with
  | none => (s, [])
  | some τ => fireAt s τ

/-- Exit of the (unique) live child at time `t`. -/
def exitFirstChild (s : MonitorState) (t : ℚ) : MonitorState × List Event :=
  match s.live with
  | [] => (s, [])
  | p :: _ => exitAt s p.1 p.2 t

/-- The delay (relative to `now`) of the pending restart timer registered
for `name`, when there is one. -/
def scheduledRestartDelay (s : MonitorState) (name : String) : Option ℚ :=
  match lookupA s.restart name with
  | none => none
  | some tid =>
    match s.pending.find? (fun τ => τ.tid == tid) with
    | none => none
    | some τ => some (τ.time - s.now)

def sampleRecord : ProcessRecord :=
  { argv := ["x"], env := [], uid := none, gid := none }

/-! ## C3: duplicate registration -/

/-- **C3** (code bug witness).  `addProcess`'s own docstring promises
"raises KeyError if a process with the given name already exists", but
`addProcessObject` performs `self.processes[name] = ...` with no duplicate
check: re-adding the name `"a"` silently replaces the existing record (and
resets its restart delay) instead of failing, leaving a single, clobbered
entry. -/
theorem claim_C3_duplicate_add_overwrites :
    (addProcess (initMonitor 0) "a" ["argv1"] none none []).processes
        = [("a", { argv := ["argv1"], env := [], uid := none, gid := none })]
    ∧ (addProcess (addProcess (initMonitor 0) "a" ["argv1"] none none [])
          "a" ["argv2"] none none []).processes
        = [("a", { argv := ["argv2"], env := [], uid := none, gid := none })]
    ∧ ({ argv := ["argv1"], env := [], uid := none, gid := none } : ProcessRecord)
        ≠ { argv := ["argv2"], env := [], uid := none, gid := none } := by
  decide

/-! ## C7: staggered start -/

/-- **C7** (staggered start).  `startProcess` schedules the actual spawn
`delayInterval * _pendingStarts` seconds later and increments
`_pendingStarts`; the scheduled callback decrements it again and calls
`reallyStartProcess`.  With `delayInterval = 1/2` and processes A, B, C
registered in that order, the three spawns happen at times 0, 1/2 and 1. -/
theorem claim_C7_staggered_start :
    (∀ (s : MonitorState) (name : String),
      (startProcess s name).pending
        = s.pending
            ++ [⟨s.nextTid, s.now + s.delayInterval * (s.pendingStarts : ℚ),
                 .delayedStart name⟩]
      ∧ (startProcess s name).pendingStarts = s.pendingStarts + 1)
    ∧ (∀ (s : MonitorState) (name : String),
        runTimerAction s (.delayedStart name)
          = reallyStartProcess { s with pendingStarts := s.pendingStarts - 1 } name)
    ∧ (let s0 := startService (addProcessObject (addProcessObject
          (addProcessObject (initMonitor (1/2)) "A" sampleRecord)
          "B" sampleRecord) "C" sampleRecord)
       let r1 := fireNext s0
       let r2 := fireNext r1.1
       let r3 := fireNext r2.1
       (r1.1.now, r1.2) = ((0 : ℚ), [Event.spawn 0 "A"])
       ∧ (r2.1.now, r2.2) = ((1/2 : ℚ), [Event.spawn 1 "B"])
       ∧ (r3.1.now, r3.2) = ((1 : ℚ), [Event.spawn 2 "C"])) := by
  refine ⟨fun s name => ⟨by simp [startProcess, callLater], rfl⟩,
          fun s name => rfl, ?_⟩
  norm_num [startService, addProcessObject, startProcess, callLater, initMonitor,
    fireNext, earliestTimer, fireAt, runTimerAction, reallyStartProcess,
    lookupA, setA, sampleRecord, pidAlive,
    (by decide : ("A" : String) ≠ "B"), (by decide : ("A" : String) ≠ "C"),
    (by decide : ("B" : String) ≠ "C"), (by decide : ("B" : String) ≠ "A"),
    (by decide : ("C" : String) ≠ "A"), (by decide : ("C" : String) ≠ "B")]

/-! ## C1: restart back-off -/

/-- One crash-loop cycle of the concrete back-off scenario: the child
exits 0.1 s after it was started, the scheduled restart delay is read off,
and the restart timer plus the staggered-start timer are fired so the child
is running again. -/
def backoffCycle (s : MonitorState) : MonitorState × ℚ :=
  let t0 := (lookupA s.timeStarted "a").getD 0
  let s1 := (exitFirstChild s (t0 + 1/10)).1
  let d := (scheduledRestartDelay s1 "a").getD 0
  ((fireNext (fireNext s1).1).1, d)

/-- The C1 scenario start state: `minRestartDelay = 1`,
`maxRestartDelay = 8`, `threshold = 1`, one running child `"a"`. -/
def backoffInit : MonitorState :=
  (fireNext (startService (addProcessObject
    { initMonitor 0 with maxRestartDelay := 8 } "a" sampleRecord))).1

/-- The restart delays scheduled over five fast-crash cycles. -/
def backoffDelays : List ℚ :=
  ((List.range 5).foldl (fun (acc : MonitorState × List ℚ) _ =>
    let r := backoffCycle acc.1
    (r.1, acc.2 ++ [r.2])) (backoffInit, [])).2

/-- **C1** (restart back-off).  On a child exit, when the lifetime
`now - timeStarted[name]` is below `threshold` the restart is scheduled
exactly `current_delay` seconds later (so the next spawn is at least that
far away) and the delay doubles, capped at `maxRestartDelay`; otherwise the
restart is scheduled with delay `0` and the delay resets to
`minRestartDelay`.  With `minRestartDelay = 1`, `maxRestartDelay = 8`,
`threshold = 1` and a child dying 0.1 s after every spawn, the successive
scheduled delays are 1, 2, 4, 8, 8. -/
theorem claim_C1_restart_backoff :
    (∀ (s : MonitorState) (name : String) (d t0 : ℚ),
      lookupA s.delay name = some d →
      lookupA s.timeStarted name = some t0 →
      s.running = true →
      (lookupA s.processes name).isSome = true →
      (s.now - t0 < s.threshold →
        lookupA (processEnded s name).1.delay name
            = some (min (d * 2) s.maxRestartDelay)
        ∧ ∃ tid, lookupA (processEnded s name).1.restart name = some tid
            ∧ (⟨tid, s.now + d, .restartProc name⟩ : Timer)
                ∈ (processEnded s name).1.pending)
      ∧ (s.threshold ≤ s.now - t0 →
        lookupA (processEnded s name).1.delay name = some s.minRestartDelay
        ∧ ∃ tid, lookupA (processEnded s name).1.restart name = some tid
            ∧ (⟨tid, s.now + 0, .restartProc name⟩ : Timer)
                ∈ (processEnded s name).1.pending))
    ∧ backoffDelays = [1, 2, 4, 8, 8] := by
  constructor
  · intro s name d t0 hd ht hr hp
    constructor
    · intro hfast
      rcases hm : lookupA s.murder name with _ | tid <;>
      · simp only [processEnded, hm, cancelTimer, hd, ht, Option.getD_some, hr,
          callLater]
        simp only [if_pos hfast]
        refine ⟨?_, s.nextTid, ?_, ?_⟩ <;>
          (split
           · simp [lookupA_setA]
           · next h => simp [hp] at h)
    · intro hslow
      have hnot : ¬ s.now - t0 < s.threshold := not_lt.mpr hslow
      rcases hm : lookupA s.murder name with _ | tid <;>
      · simp only [processEnded, hm, cancelTimer, hd, ht, Option.getD_some, hr,
          callLater]
        simp only [if_neg hnot]
        refine ⟨?_, s.nextTid, ?_, ?_⟩ <;>
          (split
           · simp [lookupA_setA]
           · next h => simp [hp] at h)
  · norm_num [backoffDelays, backoffInit, backoffCycle, exitFirstChild, exitAt,
      processEnded, scheduledRestartDelay, fireNext, earliestTimer, fireAt,
      runTimerAction, reallyStartProcess, startProcess, callLater, cancelTimer,
      startService, addProcessObject, initMonitor, lookupA, setA, eraseA,
      sampleRecord, pidAlive, List.range_succ]

def c1WitnessState : MonitorState :=
  { initMonitor 0 with processes := [("a", sampleRecord)],
                       delay := [("a", 1)], timeStarted := [("a", 0)],
                       running := true }

/-- Witness for C1: the general back-off statement applied to a concrete
running monitor with one child. -/
theorem claim_C1_restart_backoff_witness :
    (c1WitnessState.now - 0 < c1WitnessState.threshold →
        lookupA (processEnded c1WitnessState "a").1.delay "a"
            = some (min ((1 : ℚ) * 2) c1WitnessState.maxRestartDelay)
        ∧ ∃ tid, lookupA (processEnded c1WitnessState "a").1.restart "a" = some tid
            ∧ (⟨tid, c1WitnessState.now + 1, .restartProc "a"⟩ : Timer)
                ∈ (processEnded c1WitnessState "a").1.pending)
    ∧ (c1WitnessState.threshold ≤ c1WitnessState.now - 0 →
        lookupA (processEnded c1WitnessState "a").1.delay "a"
            = some c1WitnessState.minRestartDelay
        ∧ ∃ tid, lookupA (processEnded c1WitnessState "a").1.restart "a" = some tid
            ∧ (⟨tid, c1WitnessState.now + 0, .restartProc "a"⟩ : Timer)
                ∈ (processEnded c1WitnessState "a").1.pending) :=
  claim_C1_restart_backoff.1 c1WitnessState "a" 1 0 rfl rfl rfl rfl

/-! ## C8: at most one live child per name

The full external interface of the monitor (adding processes, starting and
stopping the service or single processes) together with the environment
steps gives the reachable states; `live`/`protocols`/`nextPid` are the only
fields the invariant concerns. -/

inductive MStep : MonitorState → MonitorState → Prop
  | dyn {s : MonitorState} {evs : List Event} {s' : MonitorState} :
      DynStep s evs s' → MStep s s'
  | add (s : MonitorState) (name : String) (r : ProcessRecord) :
      MStep s (addProcessObject s name r)
  | startSvc (s : MonitorState) : MStep s (startService s)
  | stopSvc (s : MonitorState) : MStep s (stopService s).1
  | stopProc (s : MonitorState) (name : String) (s' : MonitorState)
      (evs : List Event) : stopProcess s name = some (s', evs) → MStep s s'
  | startProc (s : MonitorState) (name : String) : MStep s (startProcess s name)

inductive Reachable : MonitorState → Prop
  | init (di : ℚ) : Reachable (initMonitor di)
  | step {s s' : MonitorState} : Reachable s → MStep s s' → Reachable s'

/-- The live-child bookkeeping invariant: every live child's pid is exactly
the protocol registered under its name, pids are below the pid counter, and
no two live children share a pid. -/
def LiveInv (s : MonitorState) : Prop :=
  (∀ p ∈ s.live, lookupA s.protocols p.2 = some p.1)
  ∧ (∀ p ∈ s.live, p.1 < s.nextPid)
  ∧ s.live.Pairwise (fun a b => a.1 ≠ b.1)

theorem startProcess_proj (s : MonitorState) (name : String) :
    (startProcess s name).live = s.live
    ∧ (startProcess s name).protocols = s.protocols
    ∧ (startProcess s name).nextPid = s.nextPid :=
  ⟨rfl, rfl, rfl⟩

theorem addProcessObject_proj (s : MonitorState) (name : String)
    (r : ProcessRecord) :
    (addProcessObject s name r).live = s.live
    ∧ (addProcessObject s name r).protocols = s.protocols
    ∧ (addProcessObject s name r).nextPid = s.nextPid := by
  unfold addProcessObject
  dsimp only
  split
  · exact ⟨rfl, rfl, rfl⟩
  · exact ⟨rfl, rfl, rfl⟩

theorem foldl_startProcess_proj (names : List String) : ∀ s : MonitorState,
    (names.foldl startProcess s).live = s.live
    ∧ (names.foldl startProcess s).protocols = s.protocols
    ∧ (names.foldl startProcess s).nextPid = s.nextPid := by
  induction names with
  | nil => intro s; exact ⟨rfl, rfl, rfl⟩
  | cons n ns ih =>
      intro s
      rw [List.foldl_cons]
      exact ih (startProcess s n)

theorem startService_proj (s : MonitorState) :
    (startService s).live = s.live
    ∧ (startService s).protocols = s.protocols
    ∧ (startService s).nextPid = s.nextPid := by
  unfold startService
  exact foldl_startProcess_proj _ _

theorem stopProcess_proj (s : MonitorState) (name : String) (s' : MonitorState)
    (evs : List Event) (h : stopProcess s name = some (s', evs)) :
    s'.live = s.live ∧ s'.protocols = s.protocols ∧ s'.nextPid = s.nextPid
    ∧ s'.processes = s.processes := by
  unfold stopProcess at h
  split at h
  · exact absurd h (by simp)
  · rcases hl : lookupA s.protocols name with _ | pid <;> simp only [hl] at h
    · simp only [Option.some.injEq] at h
      cases h
      exact ⟨rfl, rfl, rfl, rfl⟩
    · by_cases hpa : pidAlive s pid = true
      · simp only [if_pos hpa, callLater, Option.some.injEq] at h
        cases h
        exact ⟨rfl, rfl, rfl, rfl⟩
      · simp only [if_neg hpa, Option.some.injEq] at h
        cases h
        exact ⟨rfl, rfl, rfl, rfl⟩

theorem cancel_foldl_proj (l : List (String × Nat)) : ∀ s : MonitorState,
    (l.foldl (fun acc p => cancelTimer acc p.2) s).live = s.live
    ∧ (l.foldl (fun acc p => cancelTimer acc p.2) s).protocols = s.protocols
    ∧ (l.foldl (fun acc p => cancelTimer acc p.2) s).nextPid = s.nextPid := by
  induction l with
  | nil => intro s; exact ⟨rfl, rfl, rfl⟩
  | cons p ps ih =>
      intro s
      rw [List.foldl_cons]
      exact ih (cancelTimer s p.2)

theorem stopService_fold_proj (names : List String) :
    ∀ (acc : MonitorState × List Event),
    ((names.foldl (fun acc name =>
        match stopProcess acc.1 name with
        | some (s', evs) => (s', acc.2 ++ evs)
        | none => acc) acc).1.live = acc.1.live
    ∧ (names.foldl (fun acc name =>
        match stopProcess acc.1 name with
        | some (s', evs) => (s', acc.2 ++ evs)
        | none => acc) acc).1.protocols = acc.1.protocols
    ∧ (names.foldl (fun acc name =>
        match stopProcess acc.1 name with
        | some (s', evs) => (s', acc.2 ++ evs)
        | none => acc) acc).1.nextPid = acc.1.nextPid) := by
  induction names with
  | nil => intro acc; exact ⟨rfl, rfl, rfl⟩
  | cons n ns ih =>
      intro acc
      rw [List.foldl_cons]
      rcases hsp : stopProcess acc.1 n with _ | ⟨s', evs⟩
      · simpa [hsp] using ih acc
      · obtain ⟨h1, h2, h3, _⟩ := stopProcess_proj acc.1 n s' evs hsp
        have := ih (s', acc.2 ++ evs)
        simp only [hsp]
        exact ⟨by rw [this.1]; exact h1, by rw [this.2.1]; exact h2,
               by rw [this.2.2]; exact h3⟩

theorem stopService_proj (s : MonitorState) :
    (stopService s).1.live = s.live
    ∧ (stopService s).1.protocols = s.protocols
    ∧ (stopService s).1.nextPid = s.nextPid := by
  unfold stopService
  dsimp only
  simp only [stopService_fold_proj, cancel_foldl_proj]
  exact ⟨trivial, trivial, trivial⟩

theorem processEnded_proj (s : MonitorState) (name : String) :
    (processEnded s name).1.live = s.live
    ∧ (processEnded s name).1.protocols = eraseA s.protocols name
    ∧ (processEnded s name).1.nextPid = s.nextPid := by
  unfold processEnded
  rcases lookupA s.murder name with _ | tid <;> dsimp only <;>
    split_ifs <;> exact ⟨rfl, rfl, rfl⟩

theorem LiveInv_congr {s s' : MonitorState} (h1 : s'.live = s.live)
    (h2 : s'.protocols = s.protocols) (h3 : s'.nextPid = s.nextPid)
    (h : LiveInv s) : LiveInv s' := by
  rw [LiveInv, h1, h2, h3]
  exact h

theorem nodup_of_pairwise_fst {l : List (Nat × String)}
    (h : l.Pairwise (fun a b => a.1 ≠ b.1)) : l.Nodup :=
  h.imp (fun hab he => hab (congrArg Prod.fst he))

theorem LiveInv_exit {s : MonitorState} (pid : Nat) (name : String) (t : ℚ)
    (hmem : (pid, name) ∈ s.live) (h : LiveInv s) :
    LiveInv (exitAt s pid name t).1 := by
  obtain ⟨hl, hb, hpw⟩ := h
  unfold exitAt
  obtain ⟨e1, e2, e3⟩ := processEnded_proj
    { s with now := t, live := s.live.erase (pid, name) } name
  have hnodup : s.live.Nodup := nodup_of_pairwise_fst hpw
  refine ⟨?_, ?_, ?_⟩
  · intro p hp
    rw [e1] at hp
    have hp' : p ∈ s.live.erase (pid, name) := hp
    have hpl : p ∈ s.live := List.mem_of_mem_erase hp'
    have hpe : p ≠ (pid, name) := ((List.Nodup.mem_erase_iff hnodup).mp hp').1
    have hne2 : p.2 ≠ name := by
      intro h2eq
      have h1' := hl p hpl
      have h2' := hl (pid, name) hmem
      rw [h2eq] at h1'
      rw [h1'] at h2'
      have hp1 : p.1 = pid := Option.some.inj h2'
      apply hpe
      obtain ⟨a, b⟩ := p
      simp only at hp1 h2eq
      rw [hp1, h2eq]
    rw [e2, lookupA_eraseA _ _ _ (fun hh => hne2 hh.symm)]
    exact hl p hpl
  · intro p hp
    rw [e1] at hp
    rw [e3]
    exact hb p (List.mem_of_mem_erase hp)
  · rw [e1]
    exact hpw.sublist (List.erase_sublist _ _)

theorem LiveInv_reallyStart (s : MonitorState) (name : String) (h : LiveInv s) :
    LiveInv (reallyStartProcess s name).1 := by
  obtain ⟨hl, hb, hpw⟩ := h
  unfold reallyStartProcess
  by_cases hsome : (lookupA s.protocols name).isSome = true
  · rw [if_pos hsome]
    exact ⟨hl, hb, hpw⟩
  · rw [if_neg hsome]
    rcases hlp : lookupA s.processes name with _ | r
    · exact ⟨hl, hb, hpw⟩
    · dsimp only
      have hnone : lookupA s.protocols name = none := by
        rcases h' : lookupA s.protocols name with _ | v
        · rfl
        · rw [h'] at hsome
          simp at hsome
      refine ⟨?_, ?_, ?_⟩
      · intro p hp
        rcases List.mem_append.mp hp with hpo | hpn
        · have hne : p.2 ≠ name := by
            intro he
            have hlook := hl p hpo
            rw [he, hnone] at hlook
            exact Option.noConfusion hlook
          rw [lookupA_setA, if_neg (fun hh => hne hh.symm)]
          exact hl p hpo
        · rcases List.mem_singleton.mp hpn with rfl
          simp [lookupA_setA]
      · intro p hp
        rcases List.mem_append.mp hp with hpo | hpn
        · exact Nat.lt_succ_of_lt (hb p hpo)
        · rcases List.mem_singleton.mp hpn with rfl
          exact Nat.lt_succ_self _
      · rw [List.pairwise_append]
        refine ⟨hpw, List.pairwise_singleton _ _, ?_⟩
        intro a ha b hb'
        rcases List.mem_singleton.mp hb' with rfl
        exact Nat.ne_of_lt (hb a ha)

theorem LiveInv_fire {s : MonitorState} (τ : Timer) (h : LiveInv s) :
    LiveInv (fireAt s τ).1 := by
  unfold fireAt
  have h1 : LiveInv { s with now := τ.time, pending := s.pending.erase τ } := h
  rcases τ.action with pid | name | name
  · simp only [runTimerAction]
    split
    · exact h1
    · exact h1
  · simp only [runTimerAction]
    obtain ⟨p1, p2, p3⟩ := startProcess_proj
      { s with now := τ.time, pending := s.pending.erase τ } name
    exact LiveInv_congr p1 p2 p3 h1
  · simp only [runTimerAction]
    exact LiveInv_reallyStart _ name h1

theorem LiveInv_mstep {s s' : MonitorState} (h : MStep s s') (hinv : LiveInv s) :
    LiveInv s' := by
  cases h with
  | dyn hd =>
      cases hd with
      | exit pid name t hmem ht => exact LiveInv_exit pid name t hmem hinv
      | fire τ hmem ht => exact LiveInv_fire τ hinv
  | add name r =>
      obtain ⟨h1, h2, h3⟩ := addProcessObject_proj s name r
      exact LiveInv_congr h1 h2 h3 hinv
  | startSvc =>
      obtain ⟨h1, h2, h3⟩ := startService_proj s
      exact LiveInv_congr h1 h2 h3 hinv
  | stopSvc =>
      obtain ⟨h1, h2, h3⟩ := stopService_proj s
      exact LiveInv_congr h1 h2 h3 hinv
  | stopProc name s' evs hsp =>
      obtain ⟨h1, h2, h3, _⟩ := stopProcess_proj s name s' evs hsp
      exact LiveInv_congr h1 h2 h3 hinv
  | startProc name =>
      obtain ⟨h1, h2, h3⟩ := startProcess_proj s name
      exact LiveInv_congr h1 h2 h3 hinv

theorem LiveInv_reachable {s : MonitorState} (h : Reachable s) : LiveInv s := by
  induction h with
  | init di =>
      exact ⟨fun p hp => absurd hp (by simp [initMonitor]),
             fun p hp => absurd hp (by simp [initMonitor]),
             by simp [initMonitor]⟩
  | step hr hm ih => exact LiveInv_mstep hm ih

/-- **C8** (at most one live child per name).  In every reachable state of
the monitor there is at most one live child process for any name; and
`reallyStartProcess` is a no-op (no spawn, no state change) for a name that
already has a live protocol. -/
theorem claim_C8_at_most_one_live_child :
    (∀ s : MonitorState, Reachable s → ∀ name : String,
      (s.live.filter (fun p => p.2 == name)).length ≤ 1)
    ∧ (∀ (s : MonitorState) (name : String),
        (lookupA s.protocols name).isSome = true →
        reallyStartProcess s name = (s, [])) := by
  constructor
  · intro s hreach name
    obtain ⟨hl, _, hpw⟩ := LiveInv_reachable hreach
    rcases hf : s.live.filter (fun p => p.2 == name) with _ | ⟨a, rest⟩
    · rw [hf]; simp
    · rcases rest with _ | ⟨b, rest2⟩
      · rw [hf]; simp
      · exfalso
        have hsub : (s.live.filter (fun p => p.2 == name)).Sublist s.live :=
          List.filter_sublist _
        have hpwf := hpw.sublist hsub
        rw [hf] at hpwf
        have hab : a.1 ≠ b.1 := (List.pairwise_cons.mp hpwf).1 b (by simp)
        have ha : a ∈ s.live.filter (fun p => p.2 == name) := by rw [hf]; simp
        have hbmem : b ∈ s.live.filter (fun p => p.2 == name) := by rw [hf]; simp
        have ha' := List.mem_filter.mp ha
        have hb' := List.mem_filter.mp hbmem
        have hna : a.2 = name := by simpa using ha'.2
        have hnb : b.2 = name := by simpa using hb'.2
        have la := hl a ha'.1
        have lb := hl b hb'.1
        rw [hna] at la
        rw [hnb] at lb
        rw [la] at lb
        exact hab (by injection lb)
  · intro s name hsome
    unfold reallyStartProcess
    rw [if_pos hsome]

/-- Witness for C8: the invariant at the initial state, and the no-op
behaviour of `reallyStartProcess` on a state whose protocol table already
has an entry for the name. -/
theorem claim_C8_at_most_one_live_child_witness :
    ((initMonitor 0).live.filter (fun p => p.2 == "a")).length ≤ 1
    ∧ reallyStartProcess { initMonitor 0 with protocols := [("a", 7)] } "a"
        = ({ initMonitor 0 with protocols := [("a", 7)] }, []) :=
  ⟨claim_C8_at_most_one_live_child.1 (initMonitor 0) (Reachable.init 0) "a",
   claim_C8_at_most_one_live_child.2 _ "a" rfl⟩

/-! ## C6: SIGTERM → SIGKILL escalation

Support lemmas characterising how the dynamic steps treat time, pending
timers, live pids and emitted events. -/

theorem processEnded_now (σ : MonitorState) (name : String) :
    (processEnded σ name).1.now = σ.now := by
  unfold processEnded
  rcases lookupA σ.murder name with _ | tid <;> dsimp only <;>
    split_ifs <;> rfl

theorem processEnded_events (σ : MonitorState) (name : String) :
    ∀ e ∈ (processEnded σ name).2,
      e = .fireDeferred name ∨ e = .aggregateFired := by
  intro e he
  unfold processEnded at he
  rcases lookupA σ.murder name with _ | tid <;> dsimp only at he <;>
    split_ifs at he <;> simp at he <;> tauto

theorem processEnded_pending_char (σ : MonitorState) (name : String) :
    ∀ τ ∈ (processEnded σ name).1.pending,
      τ ∈ σ.pending ∨ τ.action = .restartProc name := by
  unfold processEnded
  rcases lookupA σ.murder name with _ | tid <;> dsimp only [cancelTimer, callLater] <;>
    split_ifs <;> intro τ hτ <;>
    first
    | (rcases List.mem_append.mp hτ with h | h
       · first
         | exact Or.inl h
         | exact Or.inl (List.mem_of_mem_filter h)
       · rcases List.mem_singleton.mp h with rfl
         exact Or.inr rfl)
    | exact Or.inl hτ
    | exact Or.inl (List.mem_of_mem_filter hτ)

theorem processEnded_pending_murder (σ : MonitorState) (name : String)
    (tid : Nat) (hm : lookupA σ.murder name = some tid) :
    ∀ τ ∈ (processEnded σ name).1.pending,
      (τ ∈ σ.pending ∧ τ.tid ≠ tid) ∨ τ.action = .restartProc name := by
  unfold processEnded
  rw [hm]
  dsimp only [cancelTimer, callLater]
  split_ifs <;> intro τ hτ <;>
    first
    | (rcases List.mem_append.mp hτ with h | h
       · refine Or.inl ⟨List.mem_of_mem_filter h, ?_⟩
         have := List.of_mem_filter h
         simpa using this
       · rcases List.mem_singleton.mp h with rfl
         exact Or.inr rfl)
    | (refine Or.inl ⟨List.mem_of_mem_filter hτ, ?_⟩
       have := List.of_mem_filter hτ
       simpa using this)

theorem startProcess_pending_char (σ : MonitorState) (name : String) :
    ∀ τ ∈ (startProcess σ name).pending,
      τ ∈ σ.pending ∨ τ.action = .delayedStart name := by
  intro τ hτ
  simp only [startProcess, callLater] at hτ
  rcases List.mem_append.mp hτ with h | h
  · exact Or.inl h
  · rcases List.mem_singleton.mp h with rfl
    exact Or.inr rfl

theorem reallyStartProcess_pending (σ : MonitorState) (name : String) :
    (reallyStartProcess σ name).1.pending = σ.pending := by
  unfold reallyStartProcess
  split
  · rfl
  · rcases lookupA σ.processes name with _ | r <;> rfl

theorem reallyStartProcess_now (σ : MonitorState) (name : String) :
    (reallyStartProcess σ name).1.now = σ.now := by
  unfold reallyStartProcess
  split
  · rfl
  · rcases lookupA σ.processes name with _ | r <;> rfl

theorem reallyStartProcess_events (σ : MonitorState) (name : String) :
    ∀ e ∈ (reallyStartProcess σ name).2, ∃ p m, e = .spawn p m := by
  unfold reallyStartProcess
  split
  · intro e he; exact absurd he (by simp)
  · rcases lookupA σ.processes name with _ | r <;> intro e he
    · exact absurd he (by simp)
    · rcases List.mem_singleton.mp he with rfl
      exact ⟨_, _, rfl⟩

theorem reallyStartProcess_live_char (σ : MonitorState) (name : String) :
    ∀ q ∈ (reallyStartProcess σ name).1.live, q ∈ σ.live ∨ q.1 = σ.nextPid := by
  unfold reallyStartProcess
  split
  · intro q hq; exact Or.inl hq
  · rcases lookupA σ.processes name with _ | r <;> intro q hq
    · exact Or.inl hq
    · rcases List.mem_append.mp hq with h | h
      · exact Or.inl h
      · rcases List.mem_singleton.mp h with rfl
        exact Or.inr rfl

theorem reallyStartProcess_nextPid_mono (σ : MonitorState) (name : String) :
    σ.nextPid ≤ (reallyStartProcess σ name).1.nextPid := by
  unfold reallyStartProcess
  split
  · exact le_refl _
  · rcases lookupA σ.processes name with _ | r
    · exact le_refl _
    · exact Nat.le_succ _

theorem runTimerAction_now (σ : MonitorState) (a : TimerAction) :
    (runTimerAction σ a).1.now = σ.now := by
  rcases a with pid | name | name
  · simp only [runTimerAction]
    split <;> rfl
  · rfl
  · simp only [runTimerAction]
    rw [reallyStartProcess_now]

theorem runTimerAction_pending_char (σ : MonitorState) (a : TimerAction) :
    ∀ τ ∈ (runTimerAction σ a).1.pending, τ ∈ σ.pending
      ∨ (∃ n, τ.action = .restartProc n) ∨ (∃ n, τ.action = .delayedStart n) := by
  rcases a with pid | name | name <;> intro τ hτ
  · simp only [runTimerAction] at hτ
    split at hτ <;> exact Or.inl hτ
  · rcases startProcess_pending_char σ name τ hτ with h | h
    · exact Or.inl h
    · exact Or.inr (Or.inr ⟨name, h⟩)
  · simp only [runTimerAction] at hτ
    rw [reallyStartProcess_pending] at hτ
    exact Or.inl hτ

theorem runTimerAction_live_char (σ : MonitorState) (a : TimerAction) :
    (∀ q ∈ (runTimerAction σ a).1.live, q ∈ σ.live ∨ q.1 = σ.nextPid)
    ∧ σ.nextPid ≤ (runTimerAction σ a).1.nextPid := by
  rcases a with pid | name | name
  · constructor
    · intro q hq
      simp only [runTimerAction] at hq
      split at hq <;> exact Or.inl hq
    · simp only [runTimerAction]
      split <;> exact le_refl _
  · exact ⟨fun q hq => Or.inl hq, le_refl _⟩
  · constructor
    · intro q hq
      simp only [runTimerAction] at hq
      exact reallyStartProcess_live_char
        { σ with pendingStarts := σ.pendingStarts - 1 } name q hq
    · simp only [runTimerAction]
      exact reallyStartProcess_nextPid_mono
        { σ with pendingStarts := σ.pendingStarts - 1 } name

theorem DynStep_pending_char {σ : MonitorState} {evs : List Event}
    {σ' : MonitorState} (h : DynStep σ evs σ') :
    ∀ τ ∈ σ'.pending, τ ∈ σ.pending
      ∨ (∃ n, τ.action = .restartProc n) ∨ (∃ n, τ.action = .delayedStart n) := by
  cases h with
  | exit pid name t hmem ht =>
      intro τ hτ
      rcases processEnded_pending_char _ name τ hτ with h | h
      · exact Or.inl h
      · exact Or.inr (Or.inl ⟨name, h⟩)
  | fire τ₀ hmem ht =>
      intro τ hτ
      rcases runTimerAction_pending_char _ _ τ hτ with h | h | h
      · exact Or.inl (List.mem_of_mem_erase h)
      · exact Or.inr (Or.inl h)
      · exact Or.inr (Or.inr h)

theorem DynStep_now_mono {σ : MonitorState} {evs : List Event}
    {σ' : MonitorState} (h : DynStep σ evs σ') : σ.now ≤ σ'.now := by
  cases h with
  | exit pid name t hmem ht =>
      show σ.now ≤ (exitAt σ pid name t).1.now
      unfold exitAt
      rw [processEnded_now]
      exact ht
  | fire τ hmem ht =>
      show σ.now ≤ (fireAt σ τ).1.now
      unfold fireAt
      rw [runTimerAction_now]
      exact ht

theorem DynStep_kill_emission {σ : MonitorState} {evs : List Event}
    {σ' : MonitorState} (h : DynStep σ evs σ') (p : Nat)
    (hk : Event.sigKill p ∈ evs) :
    ∃ τ ∈ σ.pending, τ.action = .forceStop p ∧ σ'.now = τ.time
      ∧ pidAlive σ p = true := by
  cases h with
  | exit pid name t hmem ht =>
      exfalso
      rcases processEnded_events _ name _ hk with h | h <;> cases h
  | fire τ hmem ht =>
      rcases ha : τ.action with pid | n | n
      · rw [show (fireAt σ τ).2
            = (runTimerAction { σ with now := τ.time, pending := σ.pending.erase τ }
                τ.action).2 from rfl, ha] at hk
        simp only [runTimerAction] at hk
        split at hk
        · rcases List.mem_singleton.mp hk with hk'
          have hp : p = pid := by injection hk'
          subst hp
          refine ⟨τ, hmem, ha, ?_, by assumption⟩
          show (fireAt σ τ).1.now = τ.time
          unfold fireAt
          rw [runTimerAction_now]
        · exact absurd hk (by simp)
      · exfalso
        rw [show (fireAt σ τ).2
            = (runTimerAction { σ with now := τ.time, pending := σ.pending.erase τ }
                τ.action).2 from rfl, ha] at hk
        exact absurd hk (by simp [runTimerAction])
      · exfalso
        rw [show (fireAt σ τ).2
            = (runTimerAction { σ with now := τ.time, pending := σ.pending.erase τ }
                τ.action).2 from rfl, ha] at hk
        simp only [runTimerAction] at hk
        rcases reallyStartProcess_events _ n _ hk with ⟨p', m', he⟩
        cases he

theorem DynStep_live_char {σ : MonitorState} {evs : List Event}
    {σ' : MonitorState} (h : DynStep σ evs σ') :
    (∀ q ∈ σ'.live, q ∈ σ.live ∨ q.1 = σ.nextPid) ∧ σ.nextPid ≤ σ'.nextPid := by
  cases h with
  | exit pid name t hmem ht =>
      obtain ⟨e1, _, e3⟩ := processEnded_proj
        { σ with now := t, live := σ.live.erase (pid, name) } name
      constructor
      · intro q hq
        rw [show (exitAt σ pid name t).1.live
            = (processEnded { σ with now := t, live := σ.live.erase (pid, name) }
                name).1.live from rfl, e1] at hq
        exact Or.inl (List.mem_of_mem_erase hq)
      · rw [show (exitAt σ pid name t).1.nextPid
            = (processEnded { σ with now := t, live := σ.live.erase (pid, name) }
                name).1.nextPid from rfl, e3]
  | fire τ hmem ht =>
      exact runTimerAction_live_char _ τ.action

theorem pidAlive_iff (σ : MonitorState) (p : Nat) :
    pidAlive σ p = true ↔ p ∈ σ.live.map Prod.fst := by
  simp only [pidAlive, List.any_eq_true, List.mem_map, beq_iff_eq]

theorem no_early_kill (deadline : ℚ) (p : Nat) {s0 : MonitorState}
    {evs : List Event} {σ : MonitorState} (h : DynReach s0 evs σ)
    (hinit : ∀ τ ∈ s0.pending, τ.action = .forceStop p → τ.time = deadline) :
    (∀ τ ∈ σ.pending, τ.action = .forceStop p → τ.time = deadline)
    ∧ (Event.sigKill p ∈ evs → deadline ≤ σ.now) := by
  induction h with
  | refl => exact ⟨hinit, by simp⟩
  | step hreach hstep ih =>
      obtain ⟨ihp, ihk⟩ := ih
      constructor
      · intro τ hτ hact
        rcases DynStep_pending_char hstep τ hτ with hin | ⟨n, hra⟩ | ⟨n, hda⟩
        · exact ihp τ hin hact
        · rw [hact] at hra; cases hra
        · rw [hact] at hda; cases hda
      · intro hk
        rcases List.mem_append.mp hk with h1 | h2
        · exact le_trans (ihk h1) (DynStep_now_mono hstep)
        · obtain ⟨τ, hτ, hact, hnow, _⟩ := DynStep_kill_emission hstep p h2
          rw [hnow, ← ihp τ hτ hact]

theorem dead_pid_no_kill (p : Nat) {σ : MonitorState} {evs₂ : List Event}
    {σ₂ : MonitorState} (h : DynReach σ evs₂ σ₂)
    (hdead : p ∉ σ.live.map Prod.fst) (hbound : p < σ.nextPid) :
    (p ∉ σ₂.live.map Prod.fst) ∧ p < σ₂.nextPid
    ∧ Event.sigKill p ∉ evs₂ := by
  induction h with
  | refl => exact ⟨hdead, hbound, by simp⟩
  | step hreach hstep ih =>
      obtain ⟨ihd, ihb, ihk⟩ := ih
      obtain ⟨hlc, hnp⟩ := DynStep_live_char hstep
      refine ⟨?_, lt_of_lt_of_le ihb hnp, ?_⟩
      · intro hmem
        rcases List.mem_map.mp hmem with ⟨q, hq, hq1⟩
        rcases hlc q hq with hin | heq
        · exact ihd (List.mem_map.mpr ⟨q, hin, hq1⟩)
        · rw [heq] at hq1
          omega
      · intro hk
        rcases List.mem_append.mp hk with h1 | h2
        · exact ihk h1
        · obtain ⟨τ, hτ, hact, hnow, halive⟩ := DynStep_kill_emission hstep p h2
          rw [pidAlive_iff] at halive
          exact ihd halive

theorem DynReach_nextPid_mono {s0 : MonitorState} {evs : List Event}
    {σ : MonitorState} (h : DynReach s0 evs σ) : s0.nextPid ≤ σ.nextPid := by
  induction h with
  | refl => exact le_refl _
  | step hreach hstep ih => exact le_trans ih (DynStep_live_char hstep).2

/-- The state `stopProcess` produces for a running child: one new
`_forceStopProcess` timer `killTime` from now, recorded in `murder`. -/
def afterStop (s : MonitorState) (name : String) (pid : Nat) : MonitorState :=
  { s with pending := s.pending
              ++ [⟨s.nextTid, s.now + s.killTime, .forceStop pid⟩],
           nextTid := s.nextTid + 1,
           murder := setA s.murder name s.nextTid }

/-- **C6** (SIGTERM with SIGKILL escalation).  `killTime` defaults to 5
seconds; signalling an already-exited child is ignored rather than raising;
and for a running child, `stopProcess` sends exactly one SIGTERM and
schedules exactly one `_forceStopProcess` escalation `killTime` seconds
later, recorded in `self.murder`.  From the resulting state, no SIGKILL for
that pid can be delivered before the deadline; once the child has exited,
no SIGKILL for it is ever delivered; and the child's exit cancels the
recorded escalation timer. -/
theorem claim_C6_sigkill_escalation :
    (∀ q : ℚ, (initMonitor q).killTime = 5)
    ∧ (∀ (σ : MonitorState) (pid₂ : Nat), pidAlive σ pid₂ = false →
        runTimerAction σ (.forceStop pid₂) = (σ, []))
    ∧ (∀ (s : MonitorState) (name : String) (pid : Nat),
        (lookupA s.processes name).isNone = false →
        lookupA s.protocols name = some pid →
        (pid, name) ∈ s.live →
        (∀ p ∈ s.live, p.1 < s.nextPid) →
        (∀ τ ∈ s.pending, ∀ q, τ.action = .forceStop q → q ≠ pid) →
        ∃ s', stopProcess s name = some (s', [Event.sigTerm pid])
          ∧ s'.pending
              = s.pending ++ [⟨s.nextTid, s.now + s.killTime, .forceStop pid⟩]
          ∧ lookupA s'.murder name = some s.nextTid
          ∧ (∀ evs σ, DynReach s' evs σ → Event.sigKill pid ∈ evs →
              s.now + s.killTime ≤ σ.now)
          ∧ (∀ evs σ, DynReach s' evs σ → pidAlive σ pid = false →
              ∀ evs₂ σ₂, DynReach σ evs₂ σ₂ → Event.sigKill pid ∉ evs₂))
    ∧ (∀ (σ : MonitorState) (name : String) (tid : Nat)
        (pid₃ : Nat) (t : ℚ), lookupA σ.murder name = some tid →
        ∀ τ ∈ (exitAt σ pid₃ name t).1.pending,
          ∀ q, τ.action = .forceStop q → τ ∈ σ.pending ∧ τ.tid ≠ tid) := by
  refine ⟨fun q => rfl, ?_, ?_, ?_⟩
  · intro σ pid₂ hdead
    simp only [runTimerAction, hdead]
    rw [if_neg (by simp [hdead])]
  · intro s name pid hproc hproto halive hfresh hnofs
    have halive' : pidAlive s pid = true :=
      (pidAlive_iff s pid).mpr (List.mem_map.mpr ⟨(pid, name), halive, rfl⟩)
    have hstop : stopProcess s name
        = some (afterStop s name pid, [Event.sigTerm pid]) := by
      unfold stopProcess
      rw [if_neg (by simp [hproc]), hproto]
      dsimp only
      rw [if_pos halive']
      rfl
    refine ⟨_, hstop, rfl, by simp [afterStop, lookupA_setA], ?_, ?_⟩
    · intro evs σ hreach hk
      have hinit : ∀ τ ∈ (afterStop s name pid).pending,
          τ.action = .forceStop pid → τ.time = s.now + s.killTime := by
        intro τ hτ hact
        rcases List.mem_append.mp hτ with h | h
        · exact absurd rfl (hnofs τ h pid hact)
        · rcases List.mem_singleton.mp h with rfl
          rfl
      exact (no_early_kill (s.now + s.killTime) pid hreach hinit).2 hk
    · intro evs σ hreach hdead evs₂ σ₂ hreach₂
      have hdead' : pid ∉ σ.live.map Prod.fst := by
        intro hmem
        rw [← pidAlive_iff] at hmem
        rw [hdead] at hmem
        exact Bool.noConfusion hmem
      have hbound : pid < σ.nextPid := by
        have h1 : pid < s.nextPid := hfresh (pid, name) halive
        have h2 := DynReach_nextPid_mono hreach
        have h3 : (afterStop s name pid).nextPid = s.nextPid := rfl
        omega
      exact (dead_pid_no_kill pid hreach₂ hdead' hbound).2.2
  · intro σ name tid pid₃ t hm τ hτ q hact
    unfold exitAt at hτ
    rcases processEnded_pending_murder
        { σ with now := t, live := σ.live.erase (pid₃, name) }
        name tid hm τ hτ with ⟨h1, h2⟩ | h
    · exact ⟨h1, h2⟩
    · rw [hact] at h
      cases h

def c6state : MonitorState :=
  { initMonitor 0 with processes := [("a", sampleRecord)],
                       protocols := [("a", 0)],
                       live := [(0, "a")], nextPid := 1 }

/-- Witness for C6: a registered running child "a" with pid 0. -/
theorem claim_C6_sigkill_escalation_witness :
    (initMonitor 0).killTime = 5
    ∧ ∃ s', stopProcess c6state "a" = some (s', [Event.sigTerm 0])
        ∧ s'.pending = c6state.pending
            ++ [⟨c6state.nextTid, c6state.now + c6state.killTime, .forceStop 0⟩]
        ∧ lookupA s'.murder "a" = some c6state.nextTid
        ∧ (∀ evs σ, DynReach s' evs σ → Event.sigKill 0 ∈ evs →
            c6state.now + c6state.killTime ≤ σ.now)
        ∧ (∀ evs σ, DynReach s' evs σ → pidAlive σ 0 = false →
            ∀ evs₂ σ₂, DynReach σ evs₂ σ₂ → Event.sigKill 0 ∉ evs₂) :=
  ⟨claim_C6_sigkill_escalation.1 0,
   claim_C6_sigkill_escalation.2.2.1 c6state "a" 0 rfl rfl
     (List.mem_singleton.mpr rfl)
     (by intro p hp
         rcases List.mem_singleton.mp hp with rfl
         exact Nat.zero_lt_one)
     (by intro τ hτ
         exact absurd hτ (by simp [c6state, initMonitor]))⟩

/-! ### `stopService` (claim C2)

`stopService` characterisation: the flags, the cancelled restart timers,
the SIGTERMs in reverse insertion order, and the fate of the
`gatherResults` aggregate (the `deferreds` list). -/

theorem lookupA_isNone_keys {β : Type} (l : List (String × β)) (n : String)
    (h : n ∈ l.map Prod.fst) : (lookupA l n).isNone = false := by
  induction l with
  | nil => simp at h
  | cons p rest ih =>
      rcases p with ⟨a, b⟩
      by_cases hp : a = n
      · simp [lookupA, hp]
      · simp only [List.map_cons, List.mem_cons] at h
        rcases h with h | h
        · exact absurd h.symm hp
        · simp [lookupA, hp, ih h]

theorem lookupA_singleton {β : Type} (k n : String) (v : β) (w : β)
    (h : lookupA [(k, v)] n = some w) : n = k ∧ w = v := by
  simp only [lookupA] at h
  split at h
  · next heq => exact ⟨heq.symm, (Option.some.inj h).symm⟩
  · exact absurd h (by simp)

theorem nodup_of_pairwise_snd {l : List (Nat × String)}
    (h : l.Pairwise (fun a b => a.2 ≠ b.2)) : l.Nodup :=
  h.imp (fun hab he => hab (congrArg Prod.snd he))

theorem cancelTimer_mem (s : MonitorState) (tid : Nat) (τ : Timer) :
    τ ∈ (cancelTimer s tid).pending ↔ τ ∈ s.pending ∧ τ.tid ≠ tid := by
  simp [cancelTimer, List.mem_filter]

theorem cancel_fold_shape (l : List (String × Nat)) : ∀ s : MonitorState,
    ∃ pend : List Timer,
      l.foldl (fun acc p => cancelTimer acc p.2) s = { s with pending := pend } := by
  induction l with
  | nil => intro s; exact ⟨s.pending, rfl⟩
  | cons p ps ih =>
      intro s
      rw [List.foldl_cons]
      obtain ⟨pend, h⟩ := ih (cancelTimer s p.2)
      refine ⟨pend, ?_⟩
      rw [h]
      rfl

theorem cancel_fold_mem (l : List (String × Nat)) : ∀ (s : MonitorState) (τ : Timer),
    (τ ∈ (l.foldl (fun acc p => cancelTimer acc p.2) s).pending
      ↔ τ ∈ s.pending ∧ ∀ p ∈ l, τ.tid ≠ p.2) := by
  induction l with
  | nil => intro s τ; simp
  | cons p ps ih =>
      intro s τ
      rw [List.foldl_cons, ih (cancelTimer s p.2) τ, cancelTimer_mem]
      constructor
      · rintro ⟨⟨h1, h2⟩, h3⟩
        refine ⟨h1, ?_⟩
        intro q hq
        rcases List.mem_cons.mp hq with rfl | hq'
        · exact h2
        · exact h3 q hq'
      · rintro ⟨h1, h2⟩
        exact ⟨⟨h1, h2 p (List.mem_cons_self p ps)⟩,
               fun q hq => h2 q (List.mem_cons_of_mem p hq)⟩

theorem stopProcess_shape (s : MonitorState) (name : String) (s' : MonitorState)
    (evs : List Event) (h : stopProcess s name = some (s', evs)) :
    ∃ (pend : List Timer) (ntid : Nat) (mur : List (String × Nat)),
      s' = { s with pending := pend, nextTid := ntid, murder := mur }
      ∧ ∀ τ ∈ pend, τ ∈ s.pending ∨ ∃ q, τ.action = TimerAction.forceStop q := by
  unfold stopProcess at h
  split at h
  · exact absurd h (by simp)
  · rcases hl : lookupA s.protocols name with _ | pid <;> simp only [hl] at h
    · simp only [Option.some.injEq, Prod.mk.injEq] at h
      obtain ⟨rfl, rfl⟩ := h
      exact ⟨s.pending, s.nextTid, s.murder, rfl, fun τ hτ => Or.inl hτ⟩
    · by_cases hpa : pidAlive s pid = true
      · simp only [if_pos hpa, callLater, Option.some.injEq, Prod.mk.injEq] at h
        obtain ⟨rfl, rfl⟩ := h
        refine ⟨_, _, _, rfl, ?_⟩
        intro τ hτ
        rcases List.mem_append.mp hτ with h' | h'
        · exact Or.inl h'
        · rcases List.mem_singleton.mp h' with rfl
          exact Or.inr ⟨pid, rfl⟩
      · simp only [if_neg hpa, Option.some.injEq, Prod.mk.injEq] at h
        obtain ⟨rfl, rfl⟩ := h
        exact ⟨s.pending, s.nextTid, s.murder, rfl, fun τ hτ => Or.inl hτ⟩

theorem stopProcess_events (s : MonitorState) (name : String)
    (hreg : (lookupA s.processes name).isNone = false)
    (halive : ∀ pid, lookupA s.protocols name = some pid → pidAlive s pid = true) :
    ∃ s', stopProcess s name
        = some (s', ((lookupA s.protocols name).map Event.sigTerm).toList) := by
  rcases hl : lookupA s.protocols name with _ | pid <;>
    unfold stopProcess <;> rw [if_neg (by simp [hreg]), hl]
  · exact ⟨s, rfl⟩
  · dsimp only
    rw [if_pos (halive pid hl)]
    exact ⟨_, rfl⟩

theorem stop_fold_shape (names : List String) : ∀ acc : MonitorState × List Event,
    ∃ (pend : List Timer) (ntid : Nat) (mur : List (String × Nat)),
      (names.foldl (fun acc name =>
          match stopProcess acc.1 name with
          | some (s', evs) => (s', acc.2 ++ evs)
          | none => acc) acc).1
        = { acc.1 with pending := pend, nextTid := ntid, murder := mur }
      ∧ ∀ τ ∈ pend, τ ∈ acc.1.pending ∨ ∃ q, τ.action = TimerAction.forceStop q := by
  induction names with
  | nil =>
      intro acc
      exact ⟨acc.1.pending, acc.1.nextTid, acc.1.murder, rfl, fun τ hτ => Or.inl hτ⟩
  | cons n ns ih =>
      intro acc
      rw [List.foldl_cons]
      rcases hsp : stopProcess acc.1 n with _ | ⟨s', evs⟩
      · simp only [hsp]
        exact ih acc
      · simp only [hsp]
        obtain ⟨pend, ntid, mur, he, hc⟩ := ih (s', acc.2 ++ evs)
        obtain ⟨p0, t0, m0, hsh, hc0⟩ := stopProcess_shape acc.1 n s' evs hsp
        refine ⟨pend, ntid, mur, ?_, ?_⟩
        · rw [he, hsh]
        · intro τ hτ
          rcases hc τ hτ with h | h
          · have h' : τ ∈ s'.pending := h
            rw [hsh] at h'
            have h'' : τ ∈ p0 := h'
            rcases hc0 τ h'' with h3 | h3
            · exact Or.inl h3
            · exact Or.inr h3
          · exact Or.inr h

theorem stop_fold_events (names : List String) : ∀ acc : MonitorState × List Event,
    (∀ n ∈ names, (lookupA acc.1.processes n).isNone = false) →
    (∀ n pid, lookupA acc.1.protocols n = some pid → pidAlive acc.1 pid = true) →
    (names.foldl (fun acc name =>
        match stopProcess acc.1 name with
        | some (s', evs) => (s', acc.2 ++ evs)
        | none => acc) acc).2
      = acc.2 ++ names.filterMap
          (fun n => (lookupA acc.1.protocols n).map Event.sigTerm) := by
  induction names with
  | nil => intro acc _ _; simp
  | cons n ns ih =>
      intro acc hreg halive
      rw [List.foldl_cons]
      obtain ⟨s', hsp⟩ := stopProcess_events acc.1 n
        (hreg n (List.mem_cons_self n ns)) (fun pid h => halive n pid h)
      obtain ⟨p0, t0, m0, hsh, -⟩ := stopProcess_shape acc.1 n s' _ hsp
      have hproc : s'.processes = acc.1.processes := by rw [hsh]
      have hproto : s'.protocols = acc.1.protocols := by rw [hsh]
      have hliveeq : s'.live = acc.1.live := by rw [hsh]
      have hreg' : ∀ m ∈ ns, (lookupA s'.processes m).isNone = false := by
        intro m hm
        rw [hproc]
        exact hreg m (List.mem_cons_of_mem n hm)
      have halive' : ∀ m pid, lookupA s'.protocols m = some pid →
          pidAlive s' pid = true := by
        intro m pid h
        rw [hproto] at h
        have := halive m pid h
        simpa only [pidAlive, hliveeq] using this
      have hih := ih (s', acc.2 ++ ((lookupA acc.1.protocols n).map Event.sigTerm).toList)
        hreg' halive'
      simp only [hsp]
      rw [hih]
      dsimp only
      rw [hproto]
      rcases hn : lookupA acc.1.protocols n with _ | pid <;>
        simp [List.filterMap_cons, hn]

theorem stopService_char (s : MonitorState)
    (halive : ∀ n pid, lookupA s.protocols n = some pid → (pid, n) ∈ s.live) :
    ∃ (pend : List Timer) (ntid : Nat) (mur : List (String × Nat)),
      (stopService s).1
        = { s with stopping := true, running := false,
                   deferreds := s.processes.map Prod.fst,
                   pending := pend, nextTid := ntid, murder := mur }
      ∧ (∀ τ ∈ pend,
          (τ ∈ s.pending ∧ ∀ p ∈ s.restart, τ.tid ≠ p.2)
          ∨ ∃ q, τ.action = TimerAction.forceStop q)
      ∧ (stopService s).2
          = ((s.processes.map Prod.fst).reverse.filterMap
               (fun n => (lookupA s.protocols n).map Event.sigTerm))
            ++ (if (s.processes.map Prod.fst).isEmpty
                then [Event.aggregateFired] else []) := by
  unfold stopService
  dsimp only
  obtain ⟨cp, hcf⟩ := cancel_fold_shape s.restart
    { s with stopping := true, deferreds := s.processes.map Prod.fst,
             running := false }
  rw [hcf]
  dsimp only
  obtain ⟨pend, ntid, mur, hsf, hsc⟩ := stop_fold_shape
    ((s.processes.map Prod.fst).reverse)
    ({ s with stopping := true, deferreds := s.processes.map Prod.fst,
              running := false, pending := cp }, [])
  have hregs : ∀ n ∈ (s.processes.map Prod.fst).reverse,
      (lookupA ({ s with stopping := true, deferreds := s.processes.map Prod.fst, running := false, pending := cp } : MonitorState).processes n).isNone = false := by
    intro n hn
    exact lookupA_isNone_keys s.processes n (List.mem_reverse.mp hn)
  have halives : ∀ n pid,
      lookupA ({ s with stopping := true, deferreds := s.processes.map Prod.fst, running := false, pending := cp } : MonitorState).protocols n = some pid →
      pidAlive { s with stopping := true, deferreds := s.processes.map Prod.fst, running := false, pending := cp } pid = true := by
    intro n pid h
    have hm := halive n pid h
    exact (pidAlive_iff _ pid).mpr (List.mem_map.mpr ⟨(pid, n), hm, rfl⟩)
  have hev := stop_fold_events ((s.processes.map Prod.fst).reverse)
    ({ s with stopping := true, deferreds := s.processes.map Prod.fst,
              running := false, pending := cp }, []) hregs halives
  refine ⟨pend, ntid, mur, ?_, ?_, ?_⟩
  · rw [hsf]
  · intro τ hτ
    rcases hsc τ hτ with h | h
    · have h' : τ ∈ cp := h
      have h'' := (cancel_fold_mem s.restart
        { s with stopping := true, deferreds := s.processes.map Prod.fst,
                 running := false } τ)
      rw [hcf] at h''
      have h3 := h''.mp h'
      exact Or.inl h3
    · exact Or.inr h
  · rw [hev, hsf]
    dsimp only
    rw [List.nil_append]

theorem pairwise_snd_ne {l : List (Nat × String)}
    (h : l.Pairwise (fun a b => a.2 ≠ b.2)) :
    ∀ p ∈ l, ∀ q ∈ l, p ≠ q → p.2 ≠ q.2 := by
  induction l with
  | nil => intro p hp q hq hne; exact absurd hp (List.not_mem_nil p)
  | cons x xs ih =>
      rcases List.pairwise_cons.mp h with ⟨hx, hxs⟩
      intro p hp q hq hne
      rcases List.mem_cons.mp hp with rfl | hp'
      · rcases List.mem_cons.mp hq with rfl | hq'
        · exact absurd rfl hne
        · exact hx q hq'
      · rcases List.mem_cons.mp hq with rfl | hq'
        · exact (hx p hp').symm
        · exact ih hxs p hp' q hq' hne

theorem processEnded_flags (σ : MonitorState) (name : String) :
    (processEnded σ name).1.stopping = σ.stopping
    ∧ (processEnded σ name).1.running = σ.running := by
  unfold processEnded
  rcases lookupA σ.murder name with _ | tid <;> dsimp only <;>
    split_ifs <;> exact ⟨rfl, rfl⟩

theorem processEnded_fired (σ : MonitorState) (name : String)
    (hstop : σ.stopping = true) (hcont : σ.deferreds.contains name = true) :
    (processEnded σ name).1.deferreds = σ.deferreds.erase name
    ∧ (processEnded σ name).2
        = Event.fireDeferred name ::
            (if (σ.deferreds.erase name).isEmpty
             then [Event.aggregateFired] else []) := by
  unfold processEnded
  rcases lookupA σ.murder name with _ | tid <;>
    dsimp only [cancelTimer, callLater] <;> split_ifs <;>
    first
      | exact ⟨rfl, rfl⟩
      | simp_all

theorem processEnded_pending_notrunning (σ : MonitorState) (name : String)
    (hrun : σ.running = false) :
    ∀ τ ∈ (processEnded σ name).1.pending, τ ∈ σ.pending := by
  unfold processEnded
  rcases lookupA σ.murder name with _ | tid <;>
    dsimp only [cancelTimer, callLater] <;>
    split_ifs <;> intro τ hτ <;>
    first
      | exact hτ
      | exact List.mem_of_mem_filter hτ
      | simp_all

/-- The invariant that holds from the moment `stopService` returns: the
service is stopping and not running, no restart or staggered-start timer is
pending, the live children and the unfired per-name deferreds correspond to
each other, and names are not duplicated. -/
def PostStop (σ : MonitorState) : Prop :=
  σ.stopping = true ∧ σ.running = false
  ∧ (∀ τ ∈ σ.pending, ∀ n, τ.action ≠ TimerAction.restartProc n
        ∧ τ.action ≠ TimerAction.delayedStart n)
  ∧ (∀ p ∈ σ.live, p.2 ∈ σ.deferreds)
  ∧ (∀ n ∈ σ.deferreds, ∃ pid, (pid, n) ∈ σ.live)
  ∧ σ.live.Pairwise (fun a b => a.2 ≠ b.2)
  ∧ σ.deferreds.Nodup

theorem PostStop_step {σ : MonitorState} {evs : List Event}
    {σ' : MonitorState} (h : DynStep σ evs σ') (hps : PostStop σ) :
    PostStop σ'
    ∧ (evs.count Event.aggregateFired
        = if σ.deferreds ≠ [] ∧ σ'.deferreds = [] then 1 else 0)
    ∧ (σ.deferreds = [] → σ'.deferreds = []) := by
  obtain ⟨h1, h2, h3, h4, h5, h6, h7⟩ := hps
  cases h with
  | exit pid name t hmem ht =>
      have hname : name ∈ σ.deferreds := h4 (pid, name) hmem
      have hcont : ({ σ with now := t, live := σ.live.erase (pid, name) }
          : MonitorState).deferreds.contains name = true :=
        List.elem_eq_true_of_mem hname
      obtain ⟨hdef0, hevs0⟩ := processEnded_fired
        { σ with now := t, live := σ.live.erase (pid, name) } name h1 hcont
      have hdef : (exitAt σ pid name t).1.deferreds = σ.deferreds.erase name :=
        hdef0
      have hevs : (exitAt σ pid name t).2
          = Event.fireDeferred name ::
              (if (σ.deferreds.erase name).isEmpty
               then [Event.aggregateFired] else []) := hevs0
      obtain ⟨hstop', hrun'⟩ := processEnded_flags
        { σ with now := t, live := σ.live.erase (pid, name) } name
      have hlive' : (exitAt σ pid name t).1.live = σ.live.erase (pid, name) :=
        (processEnded_proj { σ with now := t, live := σ.live.erase (pid, name) }
          name).1
      have hpend' := processEnded_pending_notrunning
        { σ with now := t, live := σ.live.erase (pid, name) } name h2
      have hlnd : σ.live.Nodup := nodup_of_pairwise_snd h6
      have hsnd : ∀ p ∈ σ.live, ∀ q ∈ σ.live, p ≠ q → p.2 ≠ q.2 :=
        pairwise_snd_ne h6
      refine ⟨⟨hstop'.trans h1, hrun'.trans h2, ?_, ?_, ?_, ?_, ?_⟩, ?_, ?_⟩
      · intro τ hτ n
        exact h3 τ (hpend' τ hτ) n
      · intro p hp
        rw [hlive'] at hp
        have hpin : p ∈ σ.live := List.mem_of_mem_erase hp
        have hpne : p ≠ (pid, name) := (hlnd.mem_erase_iff.mp hp).1
        have : p.2 ≠ name := hsnd p hpin (pid, name) hmem hpne
        rw [hdef]
        exact (List.mem_erase_of_ne this).mpr (h4 p hpin)
      · intro n hn
        rw [hdef] at hn
        have hnin : n ∈ σ.deferreds := List.mem_of_mem_erase hn
        have hne : n ≠ name := (h7.mem_erase_iff.mp hn).1
        obtain ⟨pid', hp'⟩ := h5 n hnin
        refine ⟨pid', ?_⟩
        rw [hlive']
        exact (List.mem_erase_of_ne (fun he => hne (congrArg Prod.snd he))).mpr hp'
      · rw [hlive']
        exact h6.sublist (List.erase_sublist _ _)
      · rw [hdef]
        exact h7.erase name
      · rw [hevs, hdef]
        have hne : σ.deferreds ≠ [] := by
          intro he
          rw [he] at hname
          exact absurd hname (List.not_mem_nil name)
        by_cases hemp : (σ.deferreds.erase name).isEmpty = true
        · rw [if_pos hemp, if_pos ⟨hne, List.isEmpty_iff.mp hemp⟩]
          rfl
        · rw [if_neg hemp, if_neg ?_]
          · rfl
          · rintro ⟨-, he⟩
            exact hemp (List.isEmpty_iff.mpr he)
      · intro he
        rw [he] at hname
        exact absurd hname (List.not_mem_nil name)
  | fire τ hmem ht =>
      have hact : ∃ q, τ.action = TimerAction.forceStop q := by
        rcases ha : τ.action with q | n | n
        · exact ⟨q, rfl⟩
        · exact absurd ha (h3 τ hmem n).1
        · exact absurd ha (h3 τ hmem n).2
      obtain ⟨q, hq⟩ := hact
      have hfa : (fireAt σ τ).1
            = { σ with now := τ.time, pending := σ.pending.erase τ }
          ∧ Event.aggregateFired ∉ (fireAt σ τ).2 := by
        unfold fireAt
        rw [hq]
        simp only [runTimerAction]
        split_ifs <;> exact ⟨rfl, by simp⟩
      obtain ⟨hst, hagg⟩ := hfa
      refine ⟨⟨?_, ?_, ?_, ?_, ?_, ?_, ?_⟩, ?_, ?_⟩ <;> rw [hst]
      · exact h1
      · exact h2
      · intro τ' hτ' n
        exact h3 τ' (List.mem_of_mem_erase hτ') n
      · exact h4
      · exact h5
      · exact h6
      · exact h7
      · rw [List.count_eq_zero.mpr ?_, if_neg ?_]
        · rintro ⟨hne, he⟩
          exact hne he
        · exact hagg
      · exact fun he => he

theorem PostStop_reach {σ0 : MonitorState} {evs : List Event} {σ : MonitorState}
    (h : DynReach σ0 evs σ) (hps : PostStop σ0) :
    PostStop σ
    ∧ (evs.count Event.aggregateFired
        = if σ0.deferreds ≠ [] ∧ σ.deferreds = [] then 1 else 0)
    ∧ (σ0.deferreds = [] → σ.deferreds = []) := by
  induction h with
  | refl =>
      refine ⟨hps, ?_, fun h => h⟩
      rw [if_neg ?_]
      · rfl
      · rintro ⟨hne, he⟩
        exact hne he
  | step hr hstep ih =>
      rename_i evs1 σmid evs2 σ2
      obtain ⟨hps1, hc1, hz1⟩ := ih
      obtain ⟨hps2, hc2, hz2⟩ := PostStop_step hstep hps1
      refine ⟨hps2, ?_, fun h0 => hz2 (hz1 h0)⟩
      rw [List.count_append, hc1, hc2]
      by_cases h0 : σ0.deferreds = []
      · have hm := hz1 h0
        have h2 := hz2 hm
        simp [h0, hm, h2]
      · by_cases hm : σmid.deferreds = []
        · have h2 := hz2 hm
          simp [h0, hm, h2]
        · by_cases h2 : σ2.deferreds = [] <;> simp [h0, hm, h2]

theorem aggregate_not_in_sigterms (P : List (String × Nat))
    (names : List String) :
    Event.aggregateFired
      ∉ names.filterMap (fun n => (lookupA P n).map Event.sigTerm) := by
  intro h
  rcases List.mem_filterMap.mp h with ⟨n, -, hn⟩
  rcases Option.map_eq_some'.mp hn with ⟨pid, -, he⟩
  cases he

/-- **C2** (amended).  `stopService` sets the stopping flag and clears the
running flag, cancels every pending restart (and staggered-start) timer,
and sends SIGTERM to the live registered children in reverse insertion
order.  Provided every registered process has a live child when
`stopService` is called, the `gatherResults` aggregate (`deferreds = []`)
fires exactly once, exactly when the last child has exited; afterwards no
child spawned by the monitor remains alive and no restart timer is active.
(The unamended claim — which asserts this for *every* set of registered
processes — is refuted by `claim_C2_stop_service_counterexample`: a
registered process with no live child leaves its deferred unfired
forever.) -/
theorem claim_C2_stop_service (s : MonitorState)
    (H1 : ∀ n pid, lookupA s.protocols n = some pid → (pid, n) ∈ s.live)
    (H2 : ∀ p ∈ s.live, p.2 ∈ s.processes.map Prod.fst)
    (H3 : ∀ n ∈ s.processes.map Prod.fst, ∃ pid, (pid, n) ∈ s.live)
    (H4 : s.live.Pairwise (fun a b => a.2 ≠ b.2))
    (H5 : (s.processes.map Prod.fst).Nodup)
    (H6 : ∀ τ ∈ s.pending, ∀ n, τ.action ≠ TimerAction.delayedStart n)
    (H7 : ∀ τ ∈ s.pending, ∀ n, τ.action = TimerAction.restartProc n →
            ∃ nm, (nm, τ.tid) ∈ s.restart) :
    (stopService s).1.stopping = true
    ∧ (stopService s).1.running = false
    ∧ (∀ τ ∈ (stopService s).1.pending, ∀ n,
          τ.action ≠ TimerAction.restartProc n
          ∧ τ.action ≠ TimerAction.delayedStart n)
    ∧ (stopService s).2
        = ((s.processes.map Prod.fst).reverse.filterMap
             (fun n => (lookupA s.protocols n).map Event.sigTerm))
          ++ (if (s.processes.map Prod.fst).isEmpty
              then [Event.aggregateFired] else [])
    ∧ (∀ evs σ, DynReach (stopService s).1 evs σ →
          (σ.deferreds = [] →
             σ.live = []
             ∧ ∀ τ ∈ σ.pending, ∀ n, τ.action ≠ TimerAction.restartProc n)
          ∧ (σ.live = [] → σ.deferreds = [])
          ∧ ((stopService s).2 ++ evs).count Event.aggregateFired
              = if σ.deferreds = [] then 1 else 0) := by
  obtain ⟨pend, ntid, mur, hst, hpc, hev⟩ := stopService_char s H1
  have hstop : (stopService s).1.stopping = true := by rw [hst]
  have hrun : (stopService s).1.running = false := by rw [hst]
  have hdefs0 : (stopService s).1.deferreds = s.processes.map Prod.fst := by
    rw [hst]
  have hpendP : ∀ τ ∈ pend, ∀ n,
      τ.action ≠ TimerAction.restartProc n
      ∧ τ.action ≠ TimerAction.delayedStart n := by
    intro τ hτ' n
    rcases hpc τ hτ' with ⟨hin, hcanc⟩ | ⟨q, hfs⟩
    · constructor
      · intro hra
        obtain ⟨nm, hnm⟩ := H7 τ hin n hra
        exact hcanc (nm, τ.tid) hnm rfl
      · exact H6 τ hin n
    · constructor <;> intro hx <;> rw [hx] at hfs <;> cases hfs
  have hpend : ∀ τ ∈ (stopService s).1.pending, ∀ n,
      τ.action ≠ TimerAction.restartProc n
      ∧ τ.action ≠ TimerAction.delayedStart n := by
    intro τ hτ
    rw [hst] at hτ
    exact hpendP τ hτ
  have hps0 : PostStop (stopService s).1 := by
    rw [hst]
    exact ⟨rfl, rfl, fun τ hτ n => hpendP τ hτ n,
           fun p hp => H2 p hp, fun n hn => H3 n hn, H4, H5⟩
  refine ⟨hstop, hrun, hpend, hev, ?_⟩
  intro evs σ hreach
  obtain ⟨hpsσ, hcnt, hz⟩ := PostStop_reach hreach hps0
  obtain ⟨-, -, hpend3, hlive4, hdef5, -, -⟩ := hpsσ
  refine ⟨?_, ?_, ?_⟩
  · intro hde
    constructor
    · rcases hl : σ.live with _ | ⟨p, rest⟩
      · rfl
      · exfalso
        have hp : p ∈ σ.live := by rw [hl]; exact List.mem_cons_self p rest
        have := hlive4 p hp
        rw [hde] at this
        exact absurd this (List.not_mem_nil _)
    · intro τ hτ n
      exact (hpend3 τ hτ n).1
  · intro hlv
    rcases hd : σ.deferreds with _ | ⟨n, rest⟩
    · rfl
    · exfalso
      have hn : n ∈ σ.deferreds := by rw [hd]; exact List.mem_cons_self n rest
      obtain ⟨pid, hp⟩ := hdef5 n hn
      rw [hlv] at hp
      exact absurd hp (List.not_mem_nil _)
  · rw [List.count_append, hcnt, hdefs0, hev, List.count_append,
        List.count_eq_zero.mpr (aggregate_not_in_sigterms s.protocols _)]
    by_cases hk : s.processes.map Prod.fst = []
    · have hσd : σ.deferreds = [] := hz (by rw [hdefs0, hk])
      simp [hk, hσd]
    · by_cases hσd : σ.deferreds = [] <;> simp [hk, hσd, List.isEmpty_iff]

/-- Witness for C2: the one-process state `c6state`, whose registered child
"a" is alive with pid 0. -/
theorem claim_C2_stop_service_witness :
    (stopService c6state).1.stopping = true
    ∧ (stopService c6state).1.running = false
    ∧ (∀ τ ∈ (stopService c6state).1.pending, ∀ n,
          τ.action ≠ TimerAction.restartProc n
          ∧ τ.action ≠ TimerAction.delayedStart n)
    ∧ (stopService c6state).2
        = ((c6state.processes.map Prod.fst).reverse.filterMap
             (fun n => (lookupA c6state.protocols n).map Event.sigTerm))
          ++ (if (c6state.processes.map Prod.fst).isEmpty
              then [Event.aggregateFired] else [])
    ∧ (∀ evs σ, DynReach (stopService c6state).1 evs σ →
          (σ.deferreds = [] →
             σ.live = []
             ∧ ∀ τ ∈ σ.pending, ∀ n, τ.action ≠ TimerAction.restartProc n)
          ∧ (σ.live = [] → σ.deferreds = [])
          ∧ ((stopService c6state).2 ++ evs).count Event.aggregateFired
              = if σ.deferreds = [] then 1 else 0) :=
  claim_C2_stop_service c6state
    (fun n pid h => by
      obtain ⟨h1, h2⟩ := lookupA_singleton "a" n 0 pid h
      rw [h1, h2]
      exact List.mem_singleton.mpr rfl)
    (fun p hp => by
      rcases List.mem_singleton.mp hp with rfl
      exact List.mem_singleton.mpr rfl)
    (fun n hn => by
      rcases List.mem_singleton.mp hn with rfl
      exact ⟨0, List.mem_singleton.mpr rfl⟩)
    (by simp [c6state, initMonitor])
    (by simp [c6state, initMonitor])
    (fun τ hτ => absurd hτ (by simp [c6state, initMonitor]))
    (fun τ hτ => absurd hτ (by simp [c6state, initMonitor]))

theorem DynReach_stuck {σ0 : MonitorState} (hlive : σ0.live = [])
    (hpend : σ0.pending = []) {evs : List Event} {σ : MonitorState}
    (h : DynReach σ0 evs σ) : σ = σ0 ∧ evs = [] := by
  induction h with
  | refl => exact ⟨rfl, rfl⟩
  | step hr hstep ih =>
      obtain ⟨rfl, rfl⟩ := ih
      cases hstep with
      | exit pid name t hmem ht =>
          rw [hlive] at hmem
          exact absurd hmem (List.not_mem_nil _)
      | fire τ hmem ht =>
          rw [hpend] at hmem
          exact absurd hmem (List.not_mem_nil _)

/-- The state after `stopService` on a monitor holding one registered but
never-started process: the per-name deferred exists but no child is alive
and no timer is pending. -/
def c2stuck : MonitorState :=
  (stopService (addProcessObject (initMonitor 0) "a" sampleRecord)).1

/-- Counterexample to C2 as stated.  Register "a" on a monitor that was
never started (so "a" has no live child) and call `stopService`: a deferred
for "a" is created (`deferreds = ["a"]`), but there is no live child and no
pending timer, no SIGTERM is sent and the aggregate does not fire — and
since no step is possible from this state, `deferreds` stays nonempty
forever, although every child (vacuously) has exited.  The claim promises
the aggregate fires exactly once for *every* set of registered
processes. -/
theorem claim_C2_stop_service_counterexample :
    c2stuck.deferreds = ["a"]
    ∧ c2stuck.live = []
    ∧ c2stuck.pending = []
    ∧ (stopService (addProcessObject (initMonitor 0) "a" sampleRecord)).2 = []
    ∧ (∀ evs σ, DynReach c2stuck evs σ → σ.deferreds = ["a"]) := by
  refine ⟨rfl, rfl, rfl, rfl, ?_⟩
  intro evs σ h
  obtain ⟨rfl, -⟩ := DynReach_stuck rfl rfl h
  rfl

end CalDAV
